import Mathlib

/-!
# Verification of the protein-graph preparation pipeline and exploration runtime

Shallow embedding, in Lean 4, of the parts of the repository that the
specification's testable claims are about:

* the offline TSV → graph pipeline (`scripts/tsv-to-graph.js`, in both its
  default-only and default+locality variants, which share their ingestion and
  assembly code verbatim): header auto-detection, row ingestion, edge
  deduplication, per-node provenance accumulation, dataset export, and the
  locality partitioning / edge re-routing stage;
* the exploration runtime's filter engine (`recomputeTotalsImmediate` and the
  edge-hidden-flag effects in `GraphViewer`) and its focus/defocus camera
  bookkeeping.

Modelling conventions:

* JavaScript strings are Lean `String`s; the JS string primitives used by the
  source (`split`, `trim`, `toLowerCase`, `includes`, and the `<` comparison,
  which JS defines lexicographically on code units) are re-implemented here as
  structurally recursive functions over `String.data` so that every claim can
  be evaluated by the kernel on concrete inputs.  The embeddings agree with
  the JS primitives on all inputs relevant here (ASCII data; code-point vs
  code-unit order coincide on the Basic Multilingual Plane).
* JS numbers are `ℚ`.  The host primitive `Number(s)` (string → number, NaN on
  a non-numeric string) is not reimplemented; the pipeline is parameterised by
  an arbitrary `num : String → Option ℚ` standing for it, with `none` playing
  the role of NaN.  Nothing in the claims depends on which strings parse.
* The external layout / community oracles (`forceatlas2`, `louvain`) and the
  random disk-sampling of the locality view are black boxes per the spec; the
  export stage is parameterised by total functions standing for them.  The
  model therefore assumes these oracles return normally.
* Mutation is replaced by explicit state passing; the incremental `degree += 1`
  / `adjacency.push` mutations of the export loops are modelled by the
  equivalent derived folds over the emitted edge list (the emitted edges are
  exactly the iteration sequence of those loops).
-/

/-! ## JS string primitives -/

/-- Whitespace recognised by the model of `String.prototype.trim`. -/
def jsIsWs (c : Char) : Bool := c = ' ' || c = '\t' || c = '\n' || c = '\r'

/-- Trim on character lists: drop whitespace from both ends. -/
def trimList (l : List Char) : List Char :=
  ((l.dropWhile jsIsWs).reverse.dropWhile jsIsWs).reverse

/-- Model of JS `s.trim()`. -/
def jsTrim (s : String) : String := String.mk (trimList s.data)

/-- Model of JS `s.toLowerCase()` (ASCII range; identical to the source's use). -/
def jsLower (s : String) : String := String.mk (s.data.map Char.toLower)

/-- Splitter underlying JS `s.split(sep)` for a character-class separator:
splits at every separator character, keeping empty fragments, and yields one
(empty) fragment for the empty string. -/
def splitFields (p : Char → Bool) : List Char → List Char → List (List Char)
  | [], acc => [acc.reverse]
  | c :: cs, acc =>
    if p c then acc.reverse :: splitFields p cs [] else splitFields p cs (c :: acc)

/-- Model of JS `line.split('\t')`. -/
def jsSplitTab (s : String) : List String :=
  (splitFields (fun c => c = '\t') s.data []).map String.mk

/-- Prefix test: the second list is a prefix of the first. -/
def isPre : List Char → List Char → Bool
  | _, [] => true
  | [], _ :: _ => false
  | a :: as, b :: bs => a = b && isPre as bs

/-- Occurrence test: the second list occurs as a contiguous sublist of the
first (model of JS `includes`). -/
def subAt : List Char → List Char → Bool
  | _, [] => true
  | [], _ :: _ => false
  | a :: as, b :: bs =>
    (a = b && isPre as bs) || subAt as (b :: bs)

/-- Model of JS `s.includes(pat)`. -/
def jsIncludes (s pat : String) : Bool := subAt s.data pat.data

/-- Model of the JS string comparison `a < b` (lexicographic on code units). -/
def ltChars : List Char → List Char → Bool
  | [], [] => false
  | [], _ :: _ => true
  | _ :: _, [] => false
  | a :: as, b :: bs =>
    if a < b then true else if b < a then false else ltChars as bs

/-- JS `a < b` on strings. -/
def strLt (a b : String) : Bool := ltChars a.data b.data

/-- Model of `line.startsWith('#')`. -/
def startsHash (s : String) : Bool :=
  match s.data with
  | [] => false
  | c :: _ => c = '#'

/-- The novelty-sentinel test `String(v).trim().toLowerCase() === 'none'`,
written identically in the pipeline (`addADB`) and throughout the runtime. -/
def noneTag (s : String) : Bool := jsLower (jsTrim s) = "none"

/-- The first-occurrence-wins deduplication loop used (with a JS `Set` called
`seen`, `nodeSeenL` or `seenEdgesL`) by every emission loop of the pipeline:
skip an element whose key was already seen, otherwise emit it and mark its
key. -/
def dedupBy {α κ : Type} [DecidableEq κ] (key : α → κ) :
    List α → List κ → List α
  | [], _ => []
  | x :: xs, seen =>
    if key x ∈ seen then dedupBy key xs seen
    else x :: dedupBy key xs (key x :: seen)

/-- The `seen` set after running the deduplication loop. -/
def seenAfter {α κ : Type} [DecidableEq κ] (key : α → κ) :
    List α → List κ → List κ
  | [], seen => seen
  | x :: xs, seen =>
    if key x ∈ seen then seenAfter key xs seen
    else seenAfter key xs (key x :: seen)

namespace TsvGraph

/-! ## Column-name normalisation and header detection

Source: `tsv-to-graph.js`,
`const norm = (s) => String(s).trim().toLowerCase().replace(/[^a-z0-9]/g, '');`
and the header-scanning block of `run`. -/

/-- The `norm` helper of the source: trim, lowercase, strip everything but `a-z0-9`. -/
def normName (s : String) : String :=
  String.mk (((jsLower (jsTrim s)).data).filter (fun c => c.isLower || c.isDigit))

/-- A normalised header cell matches a wanted column name if it equals it or
contains it as a substring (`h === want || h.includes(want)`). -/
def colMatch (want h : String) : Bool := h = want || jsIncludes h want

/-- CLI configuration of the pipeline after `parseArgs` (column names already
defaulted as in `run`).  `weight` is `none` when no `--weight` flag was given
(the source then never looks for a weight column). -/
structure Cfg where
  source : String := "protein1"
  target : String := "protein2"
  name1 : String := "name1"
  name2 : String := "name2"
  weight : Option String := none
  allDBs : String := "allDBs"
  afmprob : String := "AFMprob"
  locality1 : String := "locality1"
  locality2 : String := "locality2"
  directed : Bool := false
  limit : Option ℕ := none

/-- Column indices fixed when the header line is found (`-1` of the source is
`none` here; `s`/`t` are guaranteed present by the header test). -/
structure HeaderIdx where
  s : ℕ
  t : ℕ
  w : Option ℕ := none
  n1 : Option ℕ := none
  n2 : Option ℕ := none
  adb : Option ℕ := none
  ap : Option ℕ := none
  l1 : Option ℕ := none
  l2 : Option ℕ := none
  deriving DecidableEq

/-- Header detection on one candidate line: normalise all cells, look up every
wanted column, succeed iff both source and target columns matched
(`if (sIdx !== -1 && tIdx !== -1)`). -/
def findHeader (cfg : Cfg) (cols : List String) : Option HeaderIdx :=
  let colsNorm := cols.map normName
  let find1 := fun (want : String) => colsNorm.findIdx? (fun h => colMatch (normName want) h)
  match find1 cfg.source, find1 cfg.target with
  | some si, some ti =>
    some { s := si, t := ti
           w := cfg.weight.bind (fun wc => find1 wc)
           n1 := find1 cfg.name1, n2 := find1 cfg.name2
           adb := find1 cfg.allDBs, ap := find1 cfg.afmprob
           l1 := find1 cfg.locality1, l2 := find1 cfg.locality2 }
  | _, _ => none

/-! ## Row ingestion -/

/-- One entry of `edgesRaw`: endpoints, NaN-coerced weight, provenance cell,
confidence (`none` = `undefined` or NaN, which the source treats identically
downstream). -/
structure RawEdge where
  a : String
  b : String
  w : ℚ
  adb : String
  ap : Option ℚ
  deriving DecidableEq

/-- One entry of `edgesRawLoc`: as `RawEdge` but with the weight *before* NaN
coercion (`none` = NaN) and the split locality lists of the row. -/
structure RawLocEdge where
  a : String
  b : String
  w : Option ℚ
  adb : String
  ap : Option ℚ
  locs1 : List String
  locs2 : List String
  deriving DecidableEq

/-- Accumulated ingestion state (the source's loop-scoped collections).
Association lists keep JS `Set`/object insertion order. -/
structure IngestState where
  nodeSet : List String := []
  edgesRaw : List RawEdge := []
  edgesRawLoc : List RawLocEdge := []
  idToLabel : List (String × String) := []
  nodeAllDBs : List (String × List String) := []
  nodeHasNone : List String := []
  proteinToLocs : List (String × List String) := []

/-- First-write-wins association insert (`if (d && !idToLabel[a])`). -/
def insLabel (m : List (String × String)) (k v : String) : List (String × String) :=
  if (m.lookup k).isSome then m else (k, v) :: m

/-- Add `v` to the insertion-ordered set stored at key `k` (JS
`Set.prototype.add` on a per-key set). -/
def insSetAdd (m : List (String × List String)) (k v : String) :
    List (String × List String) :=
  match m.lookup k with
  | none => (k, [v]) :: m
  | some l => (k, if v ∈ l then l else l ++ [v]) :: m.eraseP (fun p => p.1 = k)

/-- Add every element of `vs` (model of `addLocs`, a no-op on `[]`). -/
def insSetAddAll (m : List (String × List String)) (k : String) (vs : List String) :
    List (String × List String) :=
  if vs = [] then m else vs.foldl (fun m v => insSetAdd m k v) m

/-- JS `Set.add` on a plain string set kept in insertion order. -/
def setAdd (s : List String) (v : String) : List String :=
  if v ∈ s then s else s ++ [v]

/-- Model of `splitLocs`: split on `,`/`;`/`|`, trim each part, drop empties. -/
def splitLocs (s : String) : List String :=
  (((splitFields (fun c => c = ',' || c = ';' || c = '|') s.data []).map
    (fun l => jsTrim (String.mk l))).filter (fun x => x ≠ ""))

/-- Model of `(parts[i] || '').trim()` — fetch a cell and trim it (`none` index = `-1`,
which the source never dereferences thanks to the `idx >= 0` guards). -/
def cellAt (parts : List String) (i : ℕ) : String := jsTrim (parts.getD i "")

/-- The JS expression `Number((parts[i] || '').trim() || '0')`, with `num`
standing for the host `Number` primitive (`none` = NaN).  `Number('0') = 0`
is forced, independent of `num`. -/
def numCell (num : String → Option ℚ) (parts : List String) (i : ℕ) : Option ℚ :=
  let s := cellAt parts i
  if s = "" then some 0 else num s

/-- The label-capture step of a row (`if (d && !idToLabel[a]) idToLabel[a] = d`,
with `d = ""` standing for an absent name column). -/
def applyLabel (m : List (String × String)) (k d : String) : List (String × String) :=
  if d ≠ "" then insLabel m k d else m

/-- The provenance-set half of the source's `addADB`: ignore an empty tag,
else add it to the node's set. -/
def addTagSet (m : List (String × List String)) (id v : String) :
    List (String × List String) :=
  if v = "" then m else insSetAdd m id v

/-- The novelty-flag half of the source's `addADB`: an ignored empty tag never
flags; otherwise the node is flagged when the tag is the novelty sentinel. -/
def addFlag (s : List String) (id v : String) : List String :=
  if v = "" then s else if noneTag v then setAdd s id else s

/-- Process one data line (the body of the ingestion loop after the header has
been found).  A row missing either endpoint is dropped; otherwise it appends
exactly one entry to `edgesRaw` and to `edgesRawLoc` and updates the per-node
collections (labels first-write-wins, provenance set and novelty flag via
`addADB` = `addTagSet`+`addFlag` for each endpoint, locality sets via
`addLocs`). -/
def processRow (num : String → Option ℚ) (h : HeaderIdx) (st : IngestState)
    (line : String) : IngestState :=
  let parts := jsSplitTab line
  let a := cellAt parts h.s
  let b := cellAt parts h.t
  if a = "" ∨ b = "" then st
  else
    let d1 := match h.n1 with | none => "" | some i => cellAt parts i
    let d2 := match h.n2 with | none => "" | some i => cellAt parts i
    let wJs : Option ℚ := match h.w with
      | none => some 1
      | some i => numCell num parts i
    let adb := match h.adb with
      | none => ""
      | some i => cellAt parts i
    let ap : Option ℚ := match h.ap with
      | none => none
      | some i => numCell num parts i
    let locs1 := match h.l1 with
      | none => []
      | some i => splitLocs (cellAt parts i)
    let locs2 := match h.l2 with
      | none => []
      | some i => splitLocs (cellAt parts i)
    { nodeSet := setAdd (setAdd st.nodeSet a) b
      edgesRaw := st.edgesRaw ++ [⟨a, b, wJs.getD 1, adb, ap⟩]
      edgesRawLoc := st.edgesRawLoc ++ [⟨a, b, wJs, adb, ap, locs1, locs2⟩]
      idToLabel := applyLabel (applyLabel st.idToLabel a d1) b d2
      nodeAllDBs := addTagSet (addTagSet st.nodeAllDBs a adb) b adb
      nodeHasNone := addFlag (addFlag st.nodeHasNone a adb) b adb
      proteinToLocs := insSetAddAll (insSetAddAll st.proteinToLocs a locs1) b locs2 }

/-- The ingestion loop (`for await (const line of rl)`): empty lines and
`#`-comments are skipped; lines before the header match are consumed by header
scanning; once the header is fixed, each further line is a data row, stopping
when `++row > limit`. -/
def ingestLines (num : String → Option ℚ) (cfg : Cfg) :
    Option HeaderIdx → ℕ → IngestState → List String → Option HeaderIdx × IngestState
  | hdr, _, st, [] => (hdr, st)
  | hdr, row, st, line :: rest =>
    if line = "" then ingestLines num cfg hdr row st rest
    else if startsHash line then ingestLines num cfg hdr row st rest
    else
      match hdr with
      | none =>
        match findHeader cfg (jsSplitTab line) with
        | some h => ingestLines num cfg (some h) row st rest
        | none => ingestLines num cfg none row st rest
      | some h =>
        if cfg.limit.elim false (fun L => row + 1 > L) then (some h, st)
        else ingestLines num cfg (some h) (row + 1) (processRow num h st line) rest

/-- Full ingestion of the input lines from the initial state. -/
def ingest (num : String → Option ℚ) (cfg : Cfg) (lines : List String) :
    Option HeaderIdx × IngestState :=
  ingestLines num cfg none 0 {} lines

/-! ## Graph assembly (deduplication) and default-view export -/

/-- The dedup / edge-id key:
`directed ? a->b : a < b ? a|b : b|a` (JS string comparison). -/
def edgeKey (directed : Bool) (a b : String) : String :=
  if directed then a ++ "->" ++ b
  else if strLt a b then a ++ "|" ++ b else b ++ "|" ++ a

/-- An edge of a generated dataset (`edgesOut` entries; also the attribute set
stored by `addEdgeWithKey`, which the export loop copies verbatim). -/
structure GEdge where
  id : String
  source : String
  target : String
  weight : ℚ
  allDBs : String
  afmprob : Option ℚ
  deriving DecidableEq

/-- The edge-assembly loop: skip raw edges with a missing endpoint, skip keys
already `seen`, otherwise add the edge under its key with the first
occurrence's attributes. -/
def assembleEdges (directed : Bool) (nodes : List String) :
    List RawEdge → List String → List GEdge
  | [], _ => []
  | r :: rs, seen =>
    if r.a ∈ nodes && r.b ∈ nodes then
      let k := edgeKey directed r.a r.b
      if k ∈ seen then assembleEdges directed nodes rs seen
      else ⟨k, r.a, r.b, r.w, r.adb, r.ap⟩ :: assembleEdges directed nodes rs (k :: seen)
    else assembleEdges directed nodes rs seen

/-- graphology's `degree` for the assembled undirected graph: number of
incident edge endpoints (a self-loop counts twice). -/
def graphDegree (edges : List GEdge) (id : String) : ℕ :=
  (edges.map (fun e =>
    (if e.source = id then 1 else 0) + (if e.target = id then 1 else 0))).sum

/-- The adjacency map built by the export loop
(`adjacency[src].push(tgt); adjacency[tgt].push(src)` per edge, in edge
order; the map was pre-seeded with `[]` for every node). -/
def adjOf (edges : List GEdge) (id : String) : List String :=
  edges.flatMap (fun e =>
    (if e.source = id then [e.target] else []) ++
    (if e.target = id then [e.source] else []))

/-- A node of the default generated dataset (`nodesOut` entry). -/
structure GNode where
  id : String
  label : String
  x : ℚ
  y : ℚ
  size : ℚ
  degree : ℕ
  community : Option ℤ
  allDBs : List String
  hasAllDBsNone : Bool
  deriving DecidableEq

/-- A generated dataset (`out` object): `meta.order`/`meta.size` are the list
lengths; clusters are not modelled (no claim mentions them). -/
structure Dataset where
  nodes : List GNode
  edges : List GEdge
  adjacency : String → List String

/-- The default-view export.  `layout` stands for the ForceAtlas2 oracle
(node → position), `community` for the Louvain oracle, `sizeOf` for
`Math.max(1, Math.sqrt(degree) * 1.2)` (irrational in general, hence an
oracle of the degree); all three are external primitives per the spec. -/
def exportDefault (layout : String → ℚ × ℚ) (community : String → Option ℤ)
    (sizeOf : ℕ → ℚ) (directed : Bool) (st : IngestState) : Dataset :=
  let edges := assembleEdges directed st.nodeSet st.edgesRaw []
  { nodes := st.nodeSet.map (fun id =>
      { id := id
        label := (st.idToLabel.lookup id).getD id
        x := (layout id).1
        y := (layout id).2
        size := sizeOf (graphDegree edges id)
        degree := graphDegree edges id
        community := community id
        allDBs := (st.nodeAllDBs.lookup id).getD []
        hasAllDBsNone := id ∈ st.nodeHasNone })
    edges := edges
    adjacency := adjOf edges }

/-- The whole default pipeline on an input file given as its list of lines. -/
def tsvDataset (num : String → Option ℚ) (layout : String → ℚ × ℚ)
    (community : String → Option ℤ) (sizeOf : ℕ → ℚ) (cfg : Cfg)
    (lines : List String) : Dataset :=
  exportDefault layout community sizeOf cfg.directed (ingest num cfg lines).2

/-- Exit behaviour of `run` past the input-existence checks: the function body
contains no further `process.exit`, so (the oracles returning normally) it
writes both outputs and the process ends with code 0. -/
def runExitCode (_num : String → Option ℚ) (_cfg : Cfg) (_lines : List String) : ℕ := 0

/-! ## Locality view -/

/-- Model of `proteinToLocs[id] ? Array.from(proteinToLocs[id]) : ['unknown']` — the
locality list used both to create node instances and as the routing fallback. -/
def locsOf (st : IngestState) (id : String) : List String :=
  match st.proteinToLocs.lookup id with
  | none => ["unknown"]
  | some l => if l = [] then ["unknown"] else l

/-- The `nodeKey` helper: `${id}@${loc || 'unknown'}`. -/
def nodeKey (id loc : String) : String :=
  id ++ "@" ++ (if loc = "" then "unknown" else loc)

/-- A node instance of the locality dataset (`nodesOutL` entry; positions are
produced by the grid/disk placement, which draws random samples, so they are
represented by the oracle `posL`; note there is no provenance field). -/
structure LNode where
  id : String
  label : String
  x : ℚ
  y : ℚ
  size : ℚ
  degree : ℕ
  baseId : String
  locality : String
  deriving DecidableEq

/-- The instance keys generated for the locality view: for each protein of
`nodeSet` (in order), one instance per declared locality (or `unknown`),
first occurrence kept by the `nodeSeenL` guard. -/
def locInstances (st : IngestState) : List (String × String) :=
  dedupBy (fun p => nodeKey p.1 p.2)
    (st.nodeSet.flatMap (fun id => (locsOf st id).map (fun loc => (id, loc)))) []

/-- The `hasNodeL` test: the key has a node instance. -/
def hasNodeL (st : IngestState) (key : String) : Bool :=
  key ∈ (locInstances st).map (fun p => nodeKey p.1 p.2)

/-- The effective locality list of the `a` endpoint of a raw edge:
`(locs1 && locs1.length) ? locs1 : (proteinToLocs[a] ? ... : ['unknown'])`. -/
def effLocsA (st : IngestState) (r : RawLocEdge) : List String :=
  if r.locs1 ≠ [] then r.locs1 else locsOf st r.a

/-- Same for the `b` endpoint. -/
def effLocsB (st : IngestState) (r : RawLocEdge) : List String :=
  if r.locs2 ≠ [] then r.locs2 else locsOf st r.b

/-- Model of `aLocs[0] || 'unknown'` — first element, with the falsy-empty guard. -/
def headLoc : List String → String
  | [] => "unknown"
  | x :: _ => if x = "" then "unknown" else x

/-- The routing rule: scan `aLocs` in order for a locality shared with
`bLocs`; on a hit route both endpoints there, otherwise use each side's
default (first) locality. -/
def routeLocs (aLocs bLocs : List String) : String × String :=
  match aLocs.find? (fun la => la ∈ bLocs) with
  | some la => (la, la)
  | none => (headLoc aLocs, headLoc bLocs)

/-- The instance keys a raw edge is routed to. -/
def routedKeys (st : IngestState) (r : RawLocEdge) : String × String :=
  let u := routeLocs (effLocsA st r) (effLocsB st r)
  (nodeKey r.a u.1, nodeKey r.b u.2)

/-- Edge id of the locality view: the `|`-join of the two endpoint keys in JS
string order. -/
def locEdgeId (aKey bKey : String) : String :=
  if strLt aKey bKey then aKey ++ "|" ++ bKey else bKey ++ "|" ++ aKey

/-- The locality edge built from a raw edge (`w || 1` maps NaN and 0 to 1). -/
def mkLocEdge (st : IngestState) (r : RawLocEdge) : GEdge :=
  let k := routedKeys st r
  { id := locEdgeId k.1 k.2
    source := k.1
    target := k.2
    weight := match r.w with | none => 1 | some q => if q = 0 then 1 else q
    allDBs := r.adb
    afmprob := r.ap }

/-- The locality edge loop: route each raw edge, drop it if an endpoint
instance is missing or its id was already emitted, else emit it. -/
def locEdgesAux (st : IngestState) : List RawLocEdge → List String → List GEdge
  | [], _ => []
  | r :: rs, seen =>
    let k := routedKeys st r
    if hasNodeL st k.1 && hasNodeL st k.2 then
      let eid := locEdgeId k.1 k.2
      if eid ∈ seen then locEdgesAux st rs seen
      else mkLocEdge st r :: locEdgesAux st rs (eid :: seen)
    else locEdgesAux st rs seen

/-- All emitted locality edges. -/
def locEdges (st : IngestState) : List GEdge := locEdgesAux st st.edgesRawLoc []

/-- The locality dataset nodes: each instance, labelled `label (loc)`, with
the degree accumulated by the edge loop (`degree += 1` per incident emitted
edge endpoint, i.e. `graphDegree` of the emitted edges). -/
def locNodes (posL : String → String → ℚ × ℚ) (st : IngestState) : List LNode :=
  (locInstances st).map (fun p =>
    { id := nodeKey p.1 p.2
      label := ((st.idToLabel.lookup p.1).getD p.1) ++ " (" ++ p.2 ++ ")"
      x := (posL p.1 p.2).1
      y := (posL p.1 p.2).2
      size := 1
      degree := graphDegree (locEdges st) (nodeKey p.1 p.2)
      baseId := p.1
      locality := p.2 })

/-- The locality dataset (`outLoc`): nodes, edges, and the adjacency built by
the same push-per-emitted-edge pattern as the default view. -/
structure LocDataset where
  nodes : List LNode
  edges : List GEdge
  adjacency : String → List String

/-- Assemble the locality dataset from an ingestion state. -/
def locDatasetOf (posL : String → String → ℚ × ℚ) (st : IngestState) : LocDataset :=
  { nodes := locNodes posL st
    edges := locEdges st
    adjacency := adjOf (locEdges st) }

/-- The whole locality pipeline on an input file given as its list of lines. -/
def locPipeline (num : String → Option ℚ) (posL : String → String → ℚ × ℚ)
    (cfg : Cfg) (lines : List String) : LocDataset :=
  locDatasetOf posL (ingest num cfg lines).2

/-! ## Derived views of the loops, used to state and prove the claims -/

/-- A raw edge passes the `hasNode` guard of the assembly loop. -/
def rawPass (nodes : List String) (r : RawEdge) : Bool :=
  r.a ∈ nodes && r.b ∈ nodes

/-- The dedup key of a raw edge. -/
def rawKey (directed : Bool) (r : RawEdge) : String := edgeKey directed r.a r.b

/-- The dataset edge built from a raw edge (`addEdgeWithKey` attributes, copied
verbatim by the export loop). -/
def mkRawG (directed : Bool) (r : RawEdge) : GEdge :=
  ⟨rawKey directed r, r.a, r.b, r.w, r.adb, r.ap⟩

/-- A raw locality edge passes the `hasNodeL` guard. -/
def locPass (st : IngestState) (r : RawLocEdge) : Bool :=
  hasNodeL st (routedKeys st r).1 && hasNodeL st (routedKeys st r).2

/-- The dedup key of a raw locality edge. -/
def locKey (st : IngestState) (r : RawLocEdge) : String :=
  locEdgeId (routedKeys st r).1 (routedKeys st r).2

/-- The `edgesRaw` entries contributed by a single input line once the header
is fixed (empty for skipped lines and rows missing an endpoint; the entry
depends only on the line, the header indices and the number oracle). -/
def lineEdges (num : String → Option ℚ) (h : HeaderIdx) (line : String) :
    List RawEdge :=
  if line = "" then []
  else if startsHash line then []
  else
    let parts := jsSplitTab line
    let a := cellAt parts h.s
    let b := cellAt parts h.t
    if a = "" ∨ b = "" then []
    else
      let wJs : Option ℚ := match h.w with
        | none => some 1
        | some i => numCell num parts i
      let adb := match h.adb with
        | none => ""
        | some i => cellAt parts i
      let ap : Option ℚ := match h.ap with
        | none => none
        | some i => numCell num parts i
      [⟨a, b, wJs.getD 1, adb, ap⟩]

/-- Two raw edges relate the same unordered endpoint pair (the deduplication
key the specification describes for undirected mode). -/
def sameUPair (r s : RawEdge) : Bool :=
  (r.a = s.a && r.b = s.b) || (r.a = s.b && r.b = s.a)

end TsvGraph

namespace Viewer

/-! ## Exploration runtime: filter engine

Source: `GraphViewer` (the single unnamed client component).  The graph the
runtime builds from a fetched dataset stores per node its `degree` attribute
(copied from the dataset) and an `isCluster` marker on the injected cluster
meta-nodes, and per edge its `allDBs` tag and optional `afmprob` score.  The
filter state is `degreeThresholdRef`/`showOnlyNewRef`/`confidenceRef`/
`showAllEdgesRef`. -/

/-- A runtime graph node (the attributes the filter / focus logic reads). -/
structure VNode where
  id : String
  degree : ℕ
  isCluster : Bool
  x : ℚ
  y : ℚ
  deriving DecidableEq

/-- A runtime graph edge. -/
structure VEdge where
  source : String
  target : String
  allDBs : String
  afmprob : Option ℚ
  deriving DecidableEq

/-- The runtime graph. -/
structure VGraph where
  nodes : List VNode
  edges : List VEdge
  deriving DecidableEq

/-- The runtime filter parameters. -/
structure FilterSt where
  thr : ℕ
  onlyNew : Bool
  conf : ℚ
  showAll : Bool
  deriving DecidableEq

/-- The `nodesBlueSetRef` set: ids touched by an edge whose tag is the novelty
sentinel (set membership is all the runtime uses). -/
def blueIds (g : VGraph) : List String :=
  (g.edges.filter (fun e => noneTag e.allDBs)).flatMap (fun e => [e.source, e.target])

/-- The `hideByDeg` test `thr > 0 && deg < thr`. -/
def hideByDeg (thr : ℕ) (deg : ℕ) : Bool := thr > 0 && deg < thr

/-- The `hideByNew` test for a node: `onlyNew && !nodesBlueSet.has(n)`. -/
def hideByNewNode (g : VGraph) (onlyNew : Bool) (id : String) : Bool :=
  onlyNew && !(id ∈ blueIds g)

/-- A (non-cluster) node survives the node filters
(`recomputeTotalsImmediate`'s `visibleNodes` test). -/
def nodeVisible (g : VGraph) (st : FilterSt) (n : VNode) : Bool :=
  !n.isCluster && !hideByDeg st.thr n.degree && !hideByNewNode g st.onlyNew n.id

/-- The ids collected in `visibleNodes` by `recomputeTotalsImmediate`. -/
def visIds (g : VGraph) (st : FilterSt) : List String :=
  (g.nodes.filter (nodeVisible g st)).map (fun n => n.id)

/-- The visible-node total (`nodesCount`). -/
def nodesTotal (g : VGraph) (st : FilterSt) : ℕ :=
  (g.nodes.filter (nodeVisible g st)).length

/-- The confidence-floor test applied to an edge's optional score: hidden iff
a score is present and below the threshold
(`typeof ap === 'number' ? ap < conf : false`, equivalently
`typeof ap === 'number' && ap < conf`). -/
def hideByConf (ap : Option ℚ) (conf : ℚ) : Bool :=
  match ap with
  | none => false
  | some a => a < conf

/-- An edge is counted by `recomputeTotalsImmediate`: both endpoints are in
`visibleNodes`, it passes the confidence floor, and it passes the only-new
edge test. -/
def edgeCounted (g : VGraph) (st : FilterSt) (e : VEdge) : Bool :=
  e.source ∈ visIds g st && e.target ∈ visIds g st &&
    !hideByConf e.afmprob st.conf && !(st.onlyNew && !noneTag e.allDBs)

/-- The visible-edge total (`edgesCount`). -/
def edgesTotal (g : VGraph) (st : FilterSt) : ℕ :=
  (g.edges.filter (edgeCounted g st)).length

/-- The visible novel-edge total (`blueCount`). -/
def blueTotal (g : VGraph) (st : FilterSt) : ℕ :=
  (g.edges.filter (fun e => edgeCounted g st e && noneTag e.allDBs)).length

/-- The per-edge `hidden` flag written by the show-all-edges effect while no
node is focused (`shouldShow = showAllEdges && !(hideByNew || hideByConf)`;
`hidden = !shouldShow`).  The same formula (with `defaultHidden`) is used by
the non-focused branch of `setHovered` and by the `clickStage` handler. -/
def edgeHiddenShowAll (st : FilterSt) (e : VEdge) : Bool :=
  !(st.showAll && !((st.onlyNew && !noneTag e.allDBs) || hideByConf e.afmprob st.conf))

/-! ## Exploration runtime: focus/defocus camera bookkeeping

Source: the camera section of `setHovered` and the defocus timer body.  The
model takes the event-level view of §5 of the specification: the state
observed between discrete events, with camera animations assumed to have run
to completion (their end state is the animation target). -/

/-- A sigma camera state. -/
structure CamSt where
  x : ℚ
  y : ℚ
  ratio : ℚ
  angle : ℚ
  deriving DecidableEq

/-- Model of `const clamp = (v, a, b) => Math.max(a, Math.min(b, v));`. -/
def jsClamp (v a b : ℚ) : ℚ := max a (min b v)

/-- The `getGraphBounds` helper: extent of the non-cluster nodes, `(0,0,0,0)` when there
are none. -/
def graphBounds (g : VGraph) : ℚ × ℚ × ℚ × ℚ :=
  match g.nodes.filter (fun n => !n.isCluster) with
  | [] => (0, 0, 0, 0)
  | n :: ns =>
    (ns.foldl (fun m k => min m k.x) n.x,
     ns.foldl (fun m k => min m k.y) n.y,
     ns.foldl (fun m k => max m k.x) n.x,
     ns.foldl (fun m k => max m k.y) n.y)

/-- Position attribute of a node id. -/
def nodePos (g : VGraph) (id : String) : ℚ × ℚ :=
  match g.nodes.find? (fun n => n.id = id) with
  | none => (0, 0)
  | some n => (n.x, n.y)

/-- The camera target computed when focusing a node: relative zoom-in
(`ratio * 0.65` clamped to `[0.25, 1]`), node position normalised by the
graph bounds, clamped to `[ratio/2, 1 - ratio/2]`; the animation target does
not mention the angle, so the angle is kept. -/
def focusTarget (g : VGraph) (id : String) (cam : CamSt) : CamSt :=
  let targetRatio := max (1/4) (min 1 (cam.ratio * (13/20)))
  let b := graphBounds g
  let p := nodePos g id
  let nx := (p.1 - b.1) / max (1/1000000000) (b.2.2.1 - b.1)
  let ny := (p.2 - b.2.1) / max (1/1000000000) (b.2.2.2 - b.2.1)
  let m := targetRatio / 2
  { x := jsClamp nx m (1 - m)
    y := jsClamp ny m (1 - m)
    ratio := targetRatio
    angle := cam.angle }

/-- The focus-relevant view state: `focusedNodeRef`, `prevCamStateRef` and the
camera. -/
structure FocusSt where
  focused : Option String
  prevCam : Option CamSt
  cam : CamSt
  deriving DecidableEq

/-- Committing a click on node `n` (`setHovered(n)` with `node` set): the
previous camera state is saved only when no node was focused
(`if (focusedNodeRef.current !== node) { if (!focusedNodeRef.current)
prevCamStateRef.current = cam.getState(); }`), the node becomes focused, and
the camera animates to the focus target. -/
def focusStep (g : VGraph) (s : FocusSt) (n : String) : FocusSt :=
  { focused := some n
    prevCam := if s.focused = none then some s.cam else s.prevCam
    cam := focusTarget g n s.cam }

/-- The committed defocus transition (the body of the deferred defocus timer,
which only runs while a node is focused): animate back to the saved snapshot
(`prevCamStateRef.current || {ratio: 1}` — a missing snapshot animates only
the ratio) and clear the focus; the snapshot reference itself is not
cleared. -/
def defocusStep (s : FocusSt) : FocusSt :=
  match s.focused with
  | none => s
  | some _ =>
    { focused := none
      prevCam := s.prevCam
      cam := match s.prevCam with
             | some c => c
             | none => { s.cam with ratio := 1 } }

end Viewer

/-! ## Concrete instances used by counterexamples and witnesses -/

/-- C1 counterexample raw edges: two rows relating *different* unordered
endpoint pairs whose `|`-joined keys nevertheless coincide. -/
def exC1raw : List TsvGraph.RawEdge :=
  [⟨"x|y", "z", 1, "", none⟩, ⟨"x", "y|z", 1, "", none⟩]

/-- Node set of the C1 counterexample. -/
def exC1nodes : List String := ["x|y", "z", "x", "y|z"]

/-- C2 counterexample input: no line matches the default source/target
columns. -/
def exC2lines : List String := ["foo\tbar", "1\t2"]

/-- C3 counterexample input: a duplicate row carries the novelty sentinel but
the kept first occurrence does not. -/
def exC3lines : List String :=
  ["protein1\tprotein2\tallDBs", "a\tb\tx", "a\tb\tnone"]

/-- The node `a` of the default dataset generated from `exC3lines` (with the
constant-zero oracles), used to instantiate the C3 witness. -/
def exC3node : TsvGraph.GNode :=
  { id := "a", label := "a", x := 0, y := 0, size := 0, degree := 1,
    community := none, allDBs := ["x", "none"], hasAllDBsNone := true }

/-- The same node record, used to instantiate the C10 witness. -/
def exC10node : TsvGraph.GNode :=
  { id := "a", label := "a", x := 0, y := 0, size := 0, degree := 1,
    community := none, allDBs := ["x", "none"], hasAllDBsNone := true }

/-- A header-index record for witnesses (source column 0, target column 1). -/
def exHdr : TsvGraph.HeaderIdx := { s := 0, t := 1 }

/-- C7 counterexample graph: one edge between two degree-1 nodes. -/
def exC7graph : Viewer.VGraph :=
  { nodes := [⟨"a", 1, false, 0, 0⟩, ⟨"b", 1, false, 0, 0⟩]
    edges := [⟨"a", "b", "", none⟩] }

/-- C7 counterexample filter state: degree floor 2 hides both endpoints while
the show-all-edges override is on. -/
def exC7st : Viewer.FilterSt := { thr := 2, onlyNew := false, conf := 0, showAll := true }

/-- C5 witness ingestion state: proteins `A` (only in `L1`) and `B` (only in
`L2`) connected by one row. -/
def exC5st : TsvGraph.IngestState :=
  { nodeSet := ["A", "B"]
    edgesRawLoc := [⟨"A", "B", some 1, "", none, ["L1"], ["L2"]⟩]
    proteinToLocs := [("A", ["L1"]), ("B", ["L2"])] }

/-! ## Generic lemmas about the shared loop combinators -/

section DedupLemmas

variable {α κ : Type} [DecidableEq κ] (key : α → κ)


theorem length_filter_le_of_imp {l : List α} {p q : α → Bool}
    (h : ∀ a ∈ l, q a = true → p a = true) :
    (l.filter q).length ≤ (l.filter p).length := by
  induction l with
  | nil => simp
  | cons x xs ih =>
    have hx := h x (List.mem_cons_self x xs)
    have ih2 := ih (fun a ha => h a (List.mem_cons_of_mem _ ha))
    by_cases hq : q x = true
    · simp [List.filter_cons, hq, hx hq]
      omega
    · simp only [Bool.not_eq_true] at hq
      by_cases hp : p x = true <;> simp [List.filter_cons, hq, hp] <;> omega

theorem mem_of_mem_dedupBy {l : List α} {seen : List κ} {x : α}
    (h : x ∈ dedupBy key l seen) : x ∈ l := by
  induction l generalizing seen with
  | nil => simp [dedupBy] at h
  | cons y ys ih =>
    rw [dedupBy] at h
    split at h
    · exact List.mem_cons_of_mem _ (ih h)
    · rcases List.mem_cons.mp h with h | h
      · exact h ▸ List.mem_cons_self _ _
      · exact List.mem_cons_of_mem _ (ih h)

theorem key_not_seen_of_mem_dedupBy {l : List α} {seen : List κ} {x : α}
    (h : x ∈ dedupBy key l seen) : key x ∉ seen := by
  induction l generalizing seen with
  | nil => simp [dedupBy] at h
  | cons y ys ih =>
    rw [dedupBy] at h
    split at h
    · exact ih h
    · rcases List.mem_cons.mp h with h | h
      · subst h; assumption
      · intro hx
        exact ih h (List.mem_cons_of_mem _ hx)

theorem mem_keys_dedupBy {l : List α} {seen : List κ} {k : κ} :
    k ∈ (dedupBy key l seen).map key ↔ k ∉ seen ∧ k ∈ l.map key := by
  induction l generalizing seen with
  | nil => simp [dedupBy]
  | cons y ys ih =>
    rw [dedupBy]
    split
    · rename_i hseen
      rw [ih]
      simp only [List.map_cons, List.mem_cons]
      constructor
      · rintro ⟨h1, h2⟩; exact ⟨h1, Or.inr h2⟩
      · rintro ⟨h1, h2 | h2⟩
        · exact absurd (h2 ▸ hseen) h1
        · exact ⟨h1, h2⟩
    · rename_i hseen
      simp only [List.map_cons, List.mem_cons, ih]
      constructor
      · rintro (h | ⟨h1, h2⟩)
        · exact ⟨h ▸ hseen, Or.inl h⟩
        · refine ⟨fun hk => h1 (Or.inr hk), Or.inr h2⟩
      · rintro ⟨h1, h2 | h2⟩
        · exact Or.inl h2
        · by_cases hk : k = key y
          · exact Or.inl hk
          · exact Or.inr ⟨by simp [List.mem_cons, hk, h1], h2⟩

theorem nodup_keys_dedupBy (l : List α) (seen : List κ) :
    ((dedupBy key l seen).map key).Nodup := by
  induction l generalizing seen with
  | nil => simp [dedupBy]
  | cons y ys ih =>
    rw [dedupBy]
    split
    · exact ih seen
    · simp only [List.map_cons, List.nodup_cons]
      refine ⟨fun hmem => ?_, ih _⟩
      have := (mem_keys_dedupBy key).mp hmem
      exact this.1 (List.mem_cons_self _ _)

theorem mem_dedupBy_of_first {pre post : List α} {x : α} {seen : List κ}
    (hx : key x ∉ seen) (hpre : ∀ y ∈ pre, key y ≠ key x) :
    x ∈ dedupBy key (pre ++ x :: post) seen := by
  induction pre generalizing seen with
  | nil =>
    simp only [List.nil_append]
    rw [dedupBy]
    split
    · exact absurd (by assumption) hx
    · exact List.mem_cons_self _ _
  | cons y ys ih =>
    simp only [List.cons_append]
    rw [dedupBy]
    have hy : key y ≠ key x := hpre y (List.mem_cons_self _ _)
    split
    · exact ih hx (fun z hz => hpre z (List.mem_cons_of_mem _ hz))
    · refine List.mem_cons_of_mem _ (ih ?_ (fun z hz => hpre z (List.mem_cons_of_mem _ hz)))
      simp only [List.mem_cons]
      rintro (h | h)
      · exact hy h.symm
      · exact hx h

theorem dedupBy_append (l₁ l₂ : List α) (seen : List κ) :
    dedupBy key (l₁ ++ l₂) seen =
      dedupBy key l₁ seen ++ dedupBy key l₂ (seenAfter key l₁ seen) := by
  induction l₁ generalizing seen with
  | nil => simp [dedupBy, seenAfter]
  | cons y ys ih =>
    simp only [List.cons_append]
    rw [dedupBy, dedupBy, seenAfter]
    split
    · exact ih seen
    · simp [ih]

theorem mem_seenAfter_of_seen {seen : List κ} {k : κ} (l : List α) (h : k ∈ seen) :
    k ∈ seenAfter key l seen := by
  induction l generalizing seen with
  | nil => simpa [seenAfter]
  | cons y ys ih =>
    rw [seenAfter]
    split
    · exact ih h
    · exact ih (List.mem_cons_of_mem _ h)

theorem key_mem_seenAfter {l : List α} {x : α} (hx : x ∈ l) (seen : List κ) :
    key x ∈ seenAfter key l seen := by
  induction l generalizing seen with
  | nil => simp at hx
  | cons y ys ih =>
    rw [seenAfter]
    rcases List.mem_cons.mp hx with h | h
    · subst h
      split
      · exact mem_seenAfter_of_seen key ys (by assumption)
      · exact mem_seenAfter_of_seen key ys (List.mem_cons_self _ _)
    · split
      · exact ih h _
      · exact ih h _

theorem dedupBy_eq_nil_of_all_seen {l : List α} {seen : List κ}
    (h : ∀ x ∈ l, key x ∈ seen) : dedupBy key l seen = [] := by
  induction l with
  | nil => simp [dedupBy]
  | cons y ys ih =>
    rw [dedupBy]
    split
    · exact ih (fun x hx => h x (List.mem_cons_of_mem _ hx))
    · exact absurd (h y (List.mem_cons_self _ _)) (by assumption)

theorem dedupBy_self_append (l : List α) (seen : List κ) :
    dedupBy key (l ++ l) seen = dedupBy key l seen := by
  rw [dedupBy_append]
  have : dedupBy key l (seenAfter key l seen) = [] :=
    dedupBy_eq_nil_of_all_seen key (fun x hx => key_mem_seenAfter key hx seen)
  simp [this]

end DedupLemmas

section StringLemmas

theorem ltChars_asymm {a b : List Char} (h : ltChars a b = true) : ltChars b a = false := by
  induction a generalizing b with
  | nil => cases b <;> simp [ltChars]
  | cons x xs ih =>
    cases b with
    | nil => simp [ltChars] at h
    | cons y ys =>
      rw [ltChars] at h ⊢
      by_cases h1 : x < y
      · have h2 : ¬ y < x := lt_asymm h1
        simp [h1, h2]
      · by_cases h2 : y < x
        · simp [h1, h2] at h
        · simp [h1, h2] at h ⊢
          exact ih h

theorem ltChars_connex {a b : List Char} (h1 : ltChars a b = false)
    (h2 : ltChars b a = false) : a = b := by
  induction a generalizing b with
  | nil => cases b <;> simp_all [ltChars]
  | cons x xs ih =>
    cases b with
    | nil => simp [ltChars] at h2
    | cons y ys =>
      rw [ltChars] at h1 h2
      by_cases hx : x < y
      · simp [hx] at h1
      · by_cases hy : y < x
        · simp [hx, hy] at h2
        · have hxy : x = y := by
            rcases lt_trichotomy x y with h | h | h
            · exact absurd h hx
            · exact h
            · exact absurd h hy
          subst hxy
          simp [hx, hy] at h1 h2
          rw [ih h1 h2]

theorem strLt_asymm {a b : String} (h : strLt a b = true) : strLt b a = false :=
  ltChars_asymm h

theorem strLt_connex {a b : String} (h1 : strLt a b = false)
    (h2 : strLt b a = false) : a = b :=
  String.ext (ltChars_connex h1 h2)

theorem pipe_split_inj {u v : List Char} (u' v' : List Char)
    (hu : ('|' : Char) ∉ u') (hv : ('|' : Char) ∉ v')
    (h : u ++ '|' :: v = u' ++ '|' :: v') : u = u' ∧ v = v' := by
  induction u generalizing u' with
  | nil =>
    cases u' with
    | nil => simpa using h
    | cons c cs =>
      simp only [List.nil_append, List.cons_append, List.cons.injEq] at h
      obtain ⟨h1, h2⟩ := h
      subst h1
      exact absurd (List.mem_cons_self _ _) hu
  | cons c cs ih =>
    cases u' with
    | nil =>
      simp only [List.cons_append, List.nil_append, List.cons.injEq] at h
      exfalso
      apply hv
      rw [← h.2]
      exact List.mem_append_right cs (List.mem_cons_self _ _)
    | cons d ds =>
      simp only [List.cons_append, List.cons.injEq] at h
      obtain ⟨rfl, h2⟩ := h
      have := ih ds (fun hm => hu (List.mem_cons_of_mem _ hm)) h2
      exact ⟨by rw [this.1], this.2⟩

end StringLemmas

section KeyLemmas

open TsvGraph

theorem locEdgeId_comm (a b : String) : locEdgeId a b = locEdgeId b a := by
  unfold locEdgeId
  by_cases h : strLt a b = true
  · rw [if_pos h, if_neg (by simp [strLt_asymm h])]
  · have h' : strLt a b = false := by simpa using h
    by_cases h2 : strLt b a = true
    · rw [if_neg (by simp [h']), if_pos h2]
    · have h2' : strLt b a = false := by simpa using h2
      have : a = b := strLt_connex h' h2'
      subst this
      rfl

theorem edgeKey_undirected_comm (a b : String) :
    edgeKey false a b = edgeKey false b a := by
  unfold edgeKey
  simp only [Bool.false_eq_true, if_false]
  by_cases h : strLt a b = true
  · rw [if_pos h, if_neg (by simp [strLt_asymm h])]
  · have h' : strLt a b = false := by simpa using h
    by_cases h2 : strLt b a = true
    · rw [if_neg (by simp [h']), if_pos h2]
    · have h2' : strLt b a = false := by simpa using h2
      have : a = b := strLt_connex h' h2'
      subst this
      rfl

theorem pipeJoin_inj {s t s' t' : String}
    (hs : ('|' : Char) ∉ s'.data) (ht : ('|' : Char) ∉ t'.data)
    (h : s ++ "|" ++ t = s' ++ "|" ++ t') : s = s' ∧ t = t' := by
  have hd : s.data ++ '|' :: t.data = s'.data ++ '|' :: t'.data := by
    have := congrArg String.data h
    simpa [String.data_append] using this
  have := pipe_split_inj s'.data t'.data hs ht hd
  exact ⟨String.ext this.1, String.ext this.2⟩

theorem locEdgeId_eq_cases {s t s' t' : String}
    (hs : ('|' : Char) ∉ s'.data) (ht : ('|' : Char) ∉ t'.data)
    (h : locEdgeId s t = locEdgeId s' t') :
    (s = s' ∧ t = t') ∨ (s = t' ∧ t = s') := by
  unfold locEdgeId at h
  by_cases h1 : strLt s t = true <;> by_cases h2 : strLt s' t' = true
  · rw [if_pos h1, if_pos h2] at h
    exact Or.inl (pipeJoin_inj hs ht h)
  · rw [if_pos h1, if_neg (by simp [h2])] at h
    exact Or.inr (pipeJoin_inj ht hs h)
  · rw [if_neg (by simp [h1]), if_pos h2] at h
    have := pipeJoin_inj hs ht h
    exact Or.inr ⟨this.2, this.1⟩
  · rw [if_neg (by simp [h1]), if_neg (by simp [h2])] at h
    have := pipeJoin_inj ht hs h
    exact Or.inl ⟨this.2, this.1⟩

end KeyLemmas

namespace TsvGraph

/-! ## Adjacency and degree lemmas -/

theorem length_adjOf (edges : List GEdge) (id : String) :
    (adjOf edges id).length = graphDegree edges id := by
  induction edges with
  | nil => simp [adjOf, graphDegree]
  | cons e es ih =>
    simp only [adjOf, graphDegree, List.flatMap_cons, List.map_cons, List.sum_cons,
      List.length_append] at *
    rw [ih]
    by_cases h1 : e.source = id <;> by_cases h2 : e.target = id <;>
      simp [h1, h2]

theorem mem_adjOf {edges : List GEdge} {a b : String} :
    b ∈ adjOf edges a ↔
      ∃ e ∈ edges, (e.source = a ∧ e.target = b) ∨ (e.target = a ∧ e.source = b) := by
  simp only [adjOf, List.mem_flatMap, List.mem_append]
  constructor
  · rintro ⟨e, he, h | h⟩
    · by_cases h1 : e.source = a
      · simp only [h1, if_true, List.mem_singleton] at h
        exact ⟨e, he, Or.inl ⟨h1, h.symm⟩⟩
      · simp [h1] at h
    · by_cases h2 : e.target = a
      · simp only [h2, if_true, List.mem_singleton] at h
        exact ⟨e, he, Or.inr ⟨h2, h.symm⟩⟩
      · simp [h2] at h
  · rintro ⟨e, he, ⟨h1, h2⟩ | ⟨h1, h2⟩⟩
    · exact ⟨e, he, Or.inl (by simp [h1, h2])⟩
    · exact ⟨e, he, Or.inr (by simp [h1, h2])⟩

theorem adjOf_symm (edges : List GEdge) (a b : String) :
    b ∈ adjOf edges a ↔ a ∈ adjOf edges b := by
  rw [mem_adjOf, mem_adjOf]
  constructor <;> rintro ⟨e, he, ⟨h1, h2⟩ | ⟨h1, h2⟩⟩
  · exact ⟨e, he, Or.inr ⟨h2, h1⟩⟩
  · exact ⟨e, he, Or.inl ⟨h2, h1⟩⟩
  · exact ⟨e, he, Or.inr ⟨h2, h1⟩⟩
  · exact ⟨e, he, Or.inl ⟨h2, h1⟩⟩

/-! ## Bridge lemmas: emission loops as filter + dedup + map -/

theorem assembleEdges_eq (d : Bool) (nodes : List String) (raw : List RawEdge)
    (seen : List String) :
    assembleEdges d nodes raw seen =
      (dedupBy (rawKey d) (raw.filter (rawPass nodes)) seen).map (mkRawG d) := by
  induction raw generalizing seen with
  | nil => simp [assembleEdges, dedupBy]
  | cons r rs ih =>
    rw [assembleEdges, List.filter_cons]
    by_cases hp : rawPass nodes r
    · rw [if_pos hp]
      have hp' : (decide (r.a ∈ nodes) && decide (r.b ∈ nodes)) = true := hp
      rw [if_pos hp']
      rw [dedupBy]
      by_cases hk : edgeKey d r.a r.b ∈ seen
      · rw [if_pos (show rawKey d r ∈ seen from hk), if_pos hk]
        exact ih seen
      · rw [if_neg (show rawKey d r ∉ seen from hk), if_neg hk]
        simp only [List.map_cons]
        rw [ih]
        rfl
    · have hp' : ¬ ((decide (r.a ∈ nodes) && decide (r.b ∈ nodes)) = true) := hp
      rw [if_neg hp', if_neg hp]
      exact ih seen

theorem locEdgesAux_eq (st : IngestState) (raw : List RawLocEdge)
    (seen : List String) :
    locEdgesAux st raw seen =
      (dedupBy (locKey st) (raw.filter (locPass st)) seen).map (mkLocEdge st) := by
  induction raw generalizing seen with
  | nil => simp [locEdgesAux, dedupBy]
  | cons r rs ih =>
    rw [locEdgesAux, List.filter_cons]
    by_cases hp : locPass st r
    · rw [if_pos hp]
      have hp' : (hasNodeL st (routedKeys st r).1 && hasNodeL st (routedKeys st r).2) = true := hp
      rw [if_pos hp']
      rw [dedupBy]
      by_cases hk : locEdgeId (routedKeys st r).1 (routedKeys st r).2 ∈ seen
      · rw [if_pos (show locKey st r ∈ seen from hk), if_pos hk]
        exact ih seen
      · rw [if_neg (show locKey st r ∉ seen from hk), if_neg hk]
        simp only [List.map_cons]
        rw [ih]
        rfl
    · have hp' : ¬ ((hasNodeL st (routedKeys st r).1 && hasNodeL st (routedKeys st r).2) = true) := hp
      rw [if_neg hp', if_neg hp]
      exact ih seen

end TsvGraph

namespace TsvGraph

/-! ## Ingestion lemmas -/

theorem mem_setAdd {s : List String} {v id : String} :
    id ∈ setAdd s v ↔ id ∈ s ∨ id = v := by
  unfold setAdd
  split
  · rename_i h
    constructor
    · exact Or.inl
    · rintro (h1 | rfl) <;> [exact h1; exact h]
  · simp [List.mem_append]

theorem noneTag_empty : noneTag "" = false := rfl

theorem mem_addFlag {s : List String} {k v id : String} :
    id ∈ addFlag s k v ↔ id ∈ s ∨ (noneTag v = true ∧ id = k) := by
  unfold addFlag
  split
  · rename_i hv
    subst hv
    simp [noneTag_empty]
  · split
    · rename_i hn
      rw [mem_setAdd]
      simp [hn]
    · rename_i hn
      simp only [Bool.not_eq_true] at hn
      simp [hn]

theorem processRow_edgesRaw (num : String → Option ℚ) (h : HeaderIdx)
    (st : IngestState) (line : String) (hne : line ≠ "")
    (hh : startsHash line = false) :
    (processRow num h st line).edgesRaw = st.edgesRaw ++ lineEdges num h line := by
  by_cases hab : cellAt (jsSplitTab line) h.s = "" ∨ cellAt (jsSplitTab line) h.t = "" <;>
    simp [processRow, lineEdges, hne, hh, hab]

theorem processRow_hasNone (num : String → Option ℚ) (h : HeaderIdx)
    (st : IngestState) (line : String)
    (inv : ∀ id, id ∈ st.nodeHasNone ↔
      ∃ r ∈ st.edgesRaw, (r.a = id ∨ r.b = id) ∧ noneTag r.adb = true) :
    ∀ id, id ∈ (processRow num h st line).nodeHasNone ↔
      ∃ r ∈ (processRow num h st line).edgesRaw,
        (r.a = id ∨ r.b = id) ∧ noneTag r.adb = true := by
  intro id
  by_cases hab : cellAt (jsSplitTab line) h.s = "" ∨ cellAt (jsSplitTab line) h.t = ""
  · simp only [processRow, if_pos hab]
    exact inv id
  · simp only [processRow, if_neg hab, mem_addFlag, List.mem_append, List.mem_singleton]
    rw [inv id]
    constructor
    · rintro ((h1 | ⟨hn, rfl⟩) | ⟨hn, rfl⟩)
      · obtain ⟨r, hr, hcond⟩ := h1
        exact ⟨r, Or.inl hr, hcond⟩
      · exact ⟨_, Or.inr rfl, Or.inl rfl, hn⟩
      · exact ⟨_, Or.inr rfl, Or.inr rfl, hn⟩
    · rintro ⟨r, hr | rfl, hcond⟩
      · exact Or.inl (Or.inl ⟨r, hr, hcond⟩)
      · rcases hcond with ⟨rfl | rfl, hn⟩
        · exact Or.inl (Or.inr ⟨hn, rfl⟩)
        · exact Or.inr ⟨hn, rfl⟩

theorem ingestLines_some_fst (num : String → Option ℚ) (cfg : Cfg) (h : HeaderIdx)
    (row : ℕ) (st : IngestState) (lines : List String) :
    (ingestLines num cfg (some h) row st lines).1 = some h := by
  induction lines generalizing row st with
  | nil => rfl
  | cons line rest ih =>
    rw [ingestLines]
    split
    · exact ih row st
    · split
      · exact ih row st
      · split
        · rfl
        · exact ih _ _

theorem ingestLines_st_of_none (num : String → Option ℚ) (cfg : Cfg)
    (row : ℕ) (st : IngestState) (lines : List String)
    (h : (ingestLines num cfg none row st lines).1 = none) :
    (ingestLines num cfg none row st lines).2 = st := by
  induction lines generalizing row st with
  | nil => rfl
  | cons line rest ih =>
    rw [ingestLines] at h ⊢
    by_cases h1 : line = ""
    · rw [if_pos h1] at h ⊢
      exact ih row st h
    · rw [if_neg h1] at h ⊢
      by_cases h2 : startsHash line = true
      · rw [if_pos h2] at h ⊢
        exact ih row st h
      · rw [if_neg h2] at h ⊢
        cases hfh : findHeader cfg (jsSplitTab line) with
        | some h3 =>
          simp only [hfh] at h
          rw [ingestLines_some_fst] at h
          exact absurd h (by simp)
        | none =>
          simp only [hfh] at h ⊢
          exact ih row st h

theorem ingestLines_edgesRaw (num : String → Option ℚ) (cfg : Cfg) (h : HeaderIdx)
    (hlim : cfg.limit = none) (row : ℕ) (st : IngestState) (lines : List String) :
    (ingestLines num cfg (some h) row st lines).2.edgesRaw =
      st.edgesRaw ++ lines.flatMap (lineEdges num h) := by
  induction lines generalizing row st with
  | nil => simp [ingestLines]
  | cons line rest ih =>
    rw [ingestLines]
    split
    · rename_i hne
      rw [ih row st]
      simp [lineEdges, hne]
    · split
      · rename_i hne hh
        rw [ih row st]
        simp [lineEdges, hne, hh]
      · rename_i hne hh
        split
        · rename_i hbrk
          rw [hlim] at hbrk
          simp [Option.elim] at hbrk
        · rw [ih _ _]
          rw [processRow_edgesRaw num h st line hne (by simpa using hh)]
          simp [List.flatMap_cons, List.append_assoc]

theorem ingestLines_hasNone (num : String → Option ℚ) (cfg : Cfg)
    (hdr : Option HeaderIdx) (row : ℕ) (st : IngestState) (lines : List String)
    (inv : ∀ id, id ∈ st.nodeHasNone ↔
      ∃ r ∈ st.edgesRaw, (r.a = id ∨ r.b = id) ∧ noneTag r.adb = true) :
    ∀ id, id ∈ (ingestLines num cfg hdr row st lines).2.nodeHasNone ↔
      ∃ r ∈ (ingestLines num cfg hdr row st lines).2.edgesRaw,
        (r.a = id ∨ r.b = id) ∧ noneTag r.adb = true := by
  induction lines generalizing hdr row st with
  | nil =>
    cases hdr <;> exact inv
  | cons line rest ih =>
    cases hdr with
    | none =>
      rw [ingestLines]
      by_cases h1 : line = ""
      · rw [if_pos h1]
        exact ih none row st inv
      · rw [if_neg h1]
        by_cases h2 : startsHash line = true
        · rw [if_pos h2]
          exact ih none row st inv
        · rw [if_neg h2]
          cases hfh : findHeader cfg (jsSplitTab line) with
          | some h3 =>
            simp only [hfh]
            exact ih _ row st inv
          | none =>
            simp only [hfh]
            exact ih _ row st inv
    | some h =>
      rw [ingestLines]
      by_cases h1 : line = ""
      · rw [if_pos h1]
        exact ih _ row st inv
      · rw [if_neg h1]
        by_cases h2 : startsHash line = true
        · rw [if_pos h2]
          exact ih _ row st inv
        · rw [if_neg h2]
          split
          · exact inv
          · exact ih _ _ _ (processRow_hasNone num h st line inv)

theorem ingest_hasNone (num : String → Option ℚ) (cfg : Cfg) (lines : List String) :
    ∀ id, id ∈ (ingest num cfg lines).2.nodeHasNone ↔
      ∃ r ∈ (ingest num cfg lines).2.edgesRaw,
        (r.a = id ∨ r.b = id) ∧ noneTag r.adb = true := by
  exact ingestLines_hasNone num cfg none 0 {} lines (by simp [IngestState])

end TsvGraph

/-! ## Glue lemmas -/

theorem find?_append_first {α : Type} (p : α → Bool) (pre post : List α) (l : α)
    (hpre : ∀ x ∈ pre, p x = false) (hl : p l = true) :
    List.find? p (pre ++ l :: post) = some l := by
  induction pre with
  | nil => simp [List.find?_cons, hl]
  | cons y ys ih =>
    have hy := hpre y (List.mem_cons_self _ _)
    simp only [List.cons_append, List.find?_cons, hy]
    exact ih (fun x hx => hpre x (List.mem_cons_of_mem _ hx))

namespace TsvGraph

theorem mem_assembleEdges {d : Bool} {nodes : List String} {raw : List RawEdge}
    {seen : List String} {e : GEdge} (h : e ∈ assembleEdges d nodes raw seen) :
    ∃ r ∈ raw, rawPass nodes r = true ∧ e = mkRawG d r := by
  rw [assembleEdges_eq] at h
  obtain ⟨r, hr, rfl⟩ := List.mem_map.mp h
  have hr2 := mem_of_mem_dedupBy _ hr
  obtain ⟨hmem, hpass⟩ := List.mem_filter.mp hr2
  exact ⟨r, hmem, hpass, rfl⟩

theorem mem_locEdges {st : IngestState} {e : GEdge} (h : e ∈ locEdges st) :
    ∃ r ∈ st.edgesRawLoc, locPass st r = true ∧ e = mkLocEdge st r := by
  rw [locEdges, locEdgesAux_eq] at h
  obtain ⟨r, hr, rfl⟩ := List.mem_map.mp h
  have hr2 := mem_of_mem_dedupBy _ hr
  obtain ⟨hmem, hpass⟩ := List.mem_filter.mp hr2
  exact ⟨r, hmem, hpass, rfl⟩

theorem hasNodeL_of_mem {st : IngestState} {id loc : String}
    (hid : id ∈ st.nodeSet) (hloc : loc ∈ locsOf st id) :
    hasNodeL st (nodeKey id loc) = true := by
  simp only [hasNodeL, locInstances, decide_eq_true_eq]
  refine (mem_keys_dedupBy (fun p : String × String => nodeKey p.1 p.2)).mpr
    ⟨by simp, ?_⟩
  rw [List.mem_map]
  exact ⟨(id, loc),
    List.mem_flatMap.mpr ⟨id, hid, List.mem_map.mpr ⟨loc, hloc, rfl⟩⟩, rfl⟩

end TsvGraph

namespace Viewer

/-! ## Filter-engine lemmas -/

theorem hideByDeg_mono {thr1 thr2 deg : ℕ} (h : thr1 ≤ thr2)
    (hd : hideByDeg thr1 deg = true) : hideByDeg thr2 deg = true := by
  simp only [hideByDeg, Bool.and_eq_true, decide_eq_true_eq] at *
  omega

theorem nodeVisible_mono_thr {g : VGraph} {thr1 thr2 : ℕ} {onlyNew : Bool}
    {c1 c2 : ℚ} {sa1 sa2 : Bool} (h : thr1 ≤ thr2) (n : VNode)
    (hv : nodeVisible g ⟨thr2, onlyNew, c2, sa2⟩ n = true) :
    nodeVisible g ⟨thr1, onlyNew, c1, sa1⟩ n = true := by
  simp only [nodeVisible, Bool.and_eq_true] at *
  refine ⟨⟨hv.1.1, ?_⟩, hv.2⟩
  have h2 : hideByDeg thr2 n.degree = false := by simpa using hv.1.2
  have h1 : hideByDeg thr1 n.degree = false := by
    rcases hcon : hideByDeg thr1 n.degree
    · rfl
    · rw [hideByDeg_mono h hcon] at h2
      cases h2
  simp [h1]

theorem hideByConf_mono {ap : Option ℚ} {c1 c2 : ℚ} (h : c1 ≤ c2)
    (hc : hideByConf ap c1 = true) : hideByConf ap c2 = true := by
  cases ap with
  | none => simp [hideByConf] at hc
  | some a =>
    simp only [hideByConf, decide_eq_true_eq] at *
    exact lt_of_lt_of_le hc h

theorem edgeCounted_mono_conf {g : VGraph} {thr : ℕ} {onlyNew : Bool}
    {c1 c2 : ℚ} {sa : Bool} (h : c1 ≤ c2) (e : VEdge)
    (hc : edgeCounted g ⟨thr, onlyNew, c2, sa⟩ e = true) :
    edgeCounted g ⟨thr, onlyNew, c1, sa⟩ e = true := by
  simp only [edgeCounted, Bool.and_eq_true] at *
  refine ⟨⟨⟨hc.1.1.1, hc.1.1.2⟩, ?_⟩, hc.2⟩
  have h2 : hideByConf e.afmprob c2 = false := by simpa using hc.1.2
  have h1 : hideByConf e.afmprob c1 = false := by
    rcases hcon : hideByConf e.afmprob c1
    · rfl
    · rw [hideByConf_mono h hcon] at h2
      cases h2
  simp [h1]

/-! ## Focus state-machine lemmas -/

theorem focusFold_inv (g : VGraph) (ns : List String) (s : FocusSt)
    (h : s.focused ≠ none) :
    (List.foldl (focusStep g) s ns).focused ≠ none ∧
      (List.foldl (focusStep g) s ns).prevCam = s.prevCam := by
  induction ns generalizing s with
  | nil => exact ⟨h, rfl⟩
  | cons n rest ih =>
    simp only [List.foldl_cons]
    have step : (focusStep g s n).focused ≠ none ∧ (focusStep g s n).prevCam = s.prevCam := by
      constructor
      · simp [focusStep]
      · simp [focusStep, if_neg h]
    have := ih (focusStep g s n) step.1
    exact ⟨this.1, this.2.trans step.2⟩

end Viewer

/-! ## Claims -/

open TsvGraph Viewer

/-- C1, counterexample.  The claim says edges are deduplicated by the
lexicographically-ordered endpoint *pair*.  The code deduplicates by the
`|`-joined key string: the two raw edges below relate distinct unordered
pairs (`{x|y, z}` vs `{x, y|z}`), both endpoints of both rows are present as
nodes, yet only one assembled edge survives — a non-duplicate row is
dropped. -/
theorem C1_pair_dedup_counterexample :
    exC1raw.all (rawPass exC1nodes) = true ∧
    exC1raw.all (fun r => exC1raw.all (fun s => !sameUPair r s || decide (r = s))) = true ∧
    (assembleEdges false exC1nodes exC1raw []).length = 1 := by
  decide

/-- C1, amended: edges are deduplicated by the joined key string
`a->b` (directed) / `min|max` by JS string order (undirected), which is
symmetric in the endpoints in undirected mode and coincides with the endpoint
pair whenever no id contains the separator — the counterexample shows they
differ otherwise.  First occurrence wins: every assembled edge is a raw
occurrence kept verbatim (never merged), assembled keys are pairwise
distinct, every passing raw edge's key is represented, and the first passing
occurrence of each key is the one kept.  Consequently re-ingesting the same
table twice (each data row contributes its raw edges independently of
accumulated state, so rows processed twice yield the raw stream twice)
assembles an identical edge list, in particular one of identical
cardinality. -/
theorem C1_dedup_amended :
    (∀ a b : String, edgeKey false a b = edgeKey false b a) ∧
    (∀ (d : Bool) (nodes : List String) (raw : List RawEdge),
      (∀ e ∈ assembleEdges d nodes raw [],
        ∃ r ∈ raw, rawPass nodes r = true ∧ e = mkRawG d r) ∧
      ((assembleEdges d nodes raw []).map (fun e => e.id)).Nodup ∧
      (∀ r ∈ raw, rawPass nodes r = true →
        rawKey d r ∈ (assembleEdges d nodes raw []).map (fun e => e.id)) ∧
      (∀ (pre post : List RawEdge) (r : RawEdge), raw = pre ++ r :: post →
        rawPass nodes r = true →
        (∀ x ∈ pre, rawPass nodes x = true → rawKey d x ≠ rawKey d r) →
        mkRawG d r ∈ assembleEdges d nodes raw [])) ∧
    (∀ (d : Bool) (nodes : List String) (raw : List RawEdge),
      assembleEdges d nodes (raw ++ raw) [] = assembleEdges d nodes raw []) ∧
    (∀ (num : String → Option ℚ) (cfg : Cfg) (h : HeaderIdx) (row : ℕ)
      (st : IngestState) (rows : List String), cfg.limit = none →
      (ingestLines num cfg (some h) row st rows).2.edgesRaw =
        st.edgesRaw ++ rows.flatMap (lineEdges num h)) := by
  refine ⟨edgeKey_undirected_comm, ?_, ?_, ?_⟩
  · intro d nodes raw
    refine ⟨fun e he => mem_assembleEdges he, ?_, ?_, ?_⟩
    · rw [assembleEdges_eq, List.map_map]
      have hfun : ((fun e : GEdge => e.id) ∘ mkRawG d) = rawKey d := by
        funext r
        rfl
      rw [hfun]
      exact nodup_keys_dedupBy _ _ _
    · intro r hr hpass
      rw [assembleEdges_eq, List.map_map]
      have hfun : ((fun e : GEdge => e.id) ∘ mkRawG d) = rawKey d := by
        funext r
        rfl
      rw [hfun]
      exact (mem_keys_dedupBy (rawKey d)).mpr
        ⟨List.not_mem_nil _, List.mem_map.mpr ⟨r, List.mem_filter.mpr ⟨hr, hpass⟩, rfl⟩⟩
    · intro pre post r hraw hpass hfirst
      rw [assembleEdges_eq]
      refine List.mem_map.mpr ⟨r, ?_, rfl⟩
      have hfil : raw.filter (rawPass nodes) =
          pre.filter (rawPass nodes) ++ r :: post.filter (rawPass nodes) := by
        rw [hraw, List.filter_append, List.filter_cons, if_pos hpass]
      rw [hfil]
      refine mem_dedupBy_of_first (rawKey d) (List.not_mem_nil _) ?_
      intro y hy
      have := List.mem_filter.mp hy
      exact hfirst y this.1 this.2
  · intro d nodes raw
    rw [assembleEdges_eq, assembleEdges_eq, List.filter_append]
    rw [dedupBy_self_append]
  · intro num cfg h row st rows hlim
    exact ingestLines_edgesRaw num cfg h hlim row st rows

/-- C1, witness for the amended claim's hypothesis-bearing parts: the
raw-stream equation at a concrete table, with the no-limit hypothesis
discharged. -/
theorem C1_dedup_amended_witness :
    (({} : Cfg).limit = none) ∧
    (ingestLines (fun _ => none) {} (some exHdr) 0 {} ["a\tb"]).2.edgesRaw =
      ({} : IngestState).edgesRaw ++ ["a\tb"].flatMap (lineEdges (fun _ => none) exHdr) :=
  ⟨rfl, C1_dedup_amended.2.2.2 (fun _ => none) {} exHdr 0 {} ["a\tb"] rfl⟩

/-- C2, counterexample.  On an input table none of whose lines matches both
the source and the target column, the pipeline is *not* fatal: the header is
never found, the run completes with exit code 0, and it writes an output
dataset (with zero nodes and zero edges) — there is no abort and no message
naming the columns present (that behaviour exists only in the separate
`filter-alldbs-none.js` utility, for its `allDBs` column). -/
theorem C2_header_fatal_counterexample :
    (ingest (fun _ => none) {} exC2lines).1 = none ∧
    runExitCode (fun _ => none) {} exC2lines = 0 ∧
    (tsvDataset (fun _ => none) (fun _ => (0, 0)) (fun _ => none) (fun _ => 0)
      {} exC2lines).nodes = [] ∧
    (tsvDataset (fun _ => none) (fun _ => (0, 0)) (fun _ => none) (fun _ => 0)
      {} exC2lines).edges = [] := by
  refine ⟨by decide, rfl, by decide, by decide⟩

/-- C2, amended: when no line yields both a source-column and a target-column
match, the run is not fatal — every line is consumed by header scanning, no
row is ingested, and the pipeline (the oracles returning normally) completes
with exit code 0, writing datasets with zero nodes and zero edges. -/
theorem C2_header_not_found_amended :
    ∀ (num : String → Option ℚ) (layout : String → ℚ × ℚ)
      (community : String → Option ℤ) (sizeOf : ℕ → ℚ)
      (posL : String → String → ℚ × ℚ) (cfg : Cfg) (lines : List String),
      (ingest num cfg lines).1 = none →
      runExitCode num cfg lines = 0 ∧
      (tsvDataset num layout community sizeOf cfg lines).nodes = [] ∧
      (tsvDataset num layout community sizeOf cfg lines).edges = [] ∧
      (locPipeline num posL cfg lines).nodes = [] ∧
      (locPipeline num posL cfg lines).edges = [] := by
  intro num layout community sizeOf posL cfg lines h
  have hst : (ingest num cfg lines).2 = {} := by
    unfold ingest at h ⊢
    exact ingestLines_st_of_none num cfg 0 {} lines h
  refine ⟨rfl, ?_, ?_, ?_, ?_⟩
  · unfold tsvDataset exportDefault
    rw [hst]
    rfl
  · unfold tsvDataset exportDefault
    rw [hst]
    rfl
  · unfold locPipeline locDatasetOf locNodes
    rw [hst]
    rfl
  · unfold locPipeline locDatasetOf locEdges
    rw [hst]
    rfl

/-- C2, witness: the amended claim applied to the concrete header-less
input. -/
theorem C2_header_not_found_witness :
    (ingest (fun _ => none) {} exC2lines).1 = none ∧
    (locPipeline (fun _ => none) (fun _ _ => (0, 0)) {} exC2lines).nodes = [] :=
  ⟨by decide, (C2_header_not_found_amended (fun _ => none) (fun _ => (0, 0))
    (fun _ => none) (fun _ => 0) (fun _ _ => (0, 0)) {} exC2lines (by decide)).2.2.2.1⟩

/-- C3, counterexample.  In the default dataset generated from `exC3lines`,
node `a` has `hasAllDBsNone = true` (a duplicate row carried the sentinel)
although its only incident dataset edge carries tag `"x"` — so the flag is
not equivalent to having an incident sentinel-tagged edge.  (In the locality
dataset the claim fails for a second reason: its nodes carry no
`hasAllDBsNone` field at all.) -/
theorem C3_novelty_counterexample :
    ((tsvDataset (fun _ => none) (fun _ => (0, 0)) (fun _ => none) (fun _ => 0)
        {} exC3lines).nodes.all (fun n =>
      n.hasAllDBsNone ==
        (tsvDataset (fun _ => none) (fun _ => (0, 0)) (fun _ => none) (fun _ => 0)
          {} exC3lines).edges.any (fun e =>
            (e.source == n.id || e.target == n.id) && noneTag e.allDBs))) = false := by
  decide

/-- C3, amended: in the default dataset, `hasAllDBsNone` is true iff at least
one *ingested row* incident to the node carries the (trimmed,
case-insensitive) novelty sentinel; in particular an incident dataset edge
with a sentinel tag forces the flag, but the converse direction of the
original claim fails because deduplication can drop the sentinel-carrying
row while keeping a first occurrence with a different tag (and locality
dataset nodes carry no flag at all). -/
theorem C3_novelty_amended :
    ∀ (num : String → Option ℚ) (layout : String → ℚ × ℚ)
      (community : String → Option ℤ) (sizeOf : ℕ → ℚ) (cfg : Cfg)
      (lines : List String),
      (∀ n ∈ (tsvDataset num layout community sizeOf cfg lines).nodes,
        (n.hasAllDBsNone = true ↔
          ∃ r ∈ (ingest num cfg lines).2.edgesRaw,
            (r.a = n.id ∨ r.b = n.id) ∧ noneTag r.adb = true)) ∧
      (∀ n ∈ (tsvDataset num layout community sizeOf cfg lines).nodes,
        ∀ e ∈ (tsvDataset num layout community sizeOf cfg lines).edges,
          (e.source = n.id ∨ e.target = n.id) → noneTag e.allDBs = true →
          n.hasAllDBsNone = true) := by
  intro num layout community sizeOf cfg lines
  have key : ∀ n ∈ (tsvDataset num layout community sizeOf cfg lines).nodes,
      (n.hasAllDBsNone = true ↔
        ∃ r ∈ (ingest num cfg lines).2.edgesRaw,
          (r.a = n.id ∨ r.b = n.id) ∧ noneTag r.adb = true) := by
    intro n hn
    unfold tsvDataset exportDefault at hn
    obtain ⟨id, _, rfl⟩ := List.mem_map.mp hn
    simp only [decide_eq_true_eq]
    exact ingest_hasNone num cfg lines id
  refine ⟨key, ?_⟩
  intro n hn e he hinc htag
  rcases mem_assembleEdges (show e ∈ assembleEdges cfg.directed
      (ingest num cfg lines).2.nodeSet (ingest num cfg lines).2.edgesRaw [] from he)
    with ⟨r, hr, _, rfl⟩
  refine (key n hn).mpr ⟨r, hr, ?_, htag⟩
  exact hinc

/-- C3, witness: the amended claim applied to the counterexample input at
the concrete node `a` — its flag is equivalent to a sentinel row being
incident to it. -/
theorem C3_novelty_witness :
    (exC3node.hasAllDBsNone = true ↔
      ∃ r ∈ (ingest (fun _ => none) ({} : Cfg) exC3lines).2.edgesRaw,
        (r.a = exC3node.id ∨ r.b = exC3node.id) ∧ noneTag r.adb = true) :=
  (C3_novelty_amended (fun _ => none) (fun _ => (0, 0)) (fun _ => none)
    (fun _ => 0) {} exC3lines).1 exC3node (by decide)

/-- C4: the confidence-floor rule never hides an edge without a score — the
test is `false` on a missing score, it fires exactly when a score is present
and below the threshold, and for a score-less edge both the counted-edge
test of `recomputeTotalsImmediate` and the hidden flag written by the
show-all-edges path are entirely independent of the threshold. -/
theorem C4_confidence_floor :
    (∀ conf : ℚ, hideByConf none conf = false) ∧
    (∀ (ap : Option ℚ) (conf : ℚ),
      hideByConf ap conf = true ↔ ∃ a, ap = some a ∧ a < conf) ∧
    (∀ (g : VGraph) (thr : ℕ) (onlyNew : Bool) (c1 c2 : ℚ) (sa : Bool) (e : VEdge),
      e.afmprob = none →
      edgeCounted g ⟨thr, onlyNew, c1, sa⟩ e = edgeCounted g ⟨thr, onlyNew, c2, sa⟩ e ∧
      edgeHiddenShowAll ⟨thr, onlyNew, c1, sa⟩ e = edgeHiddenShowAll ⟨thr, onlyNew, c2, sa⟩ e) := by
  refine ⟨fun conf => rfl, ?_, ?_⟩
  · intro ap conf
    cases ap with
    | none =>
      simp [hideByConf]
    | some a =>
      simp [hideByConf]
  · intro g thr onlyNew c1 c2 sa e hap
    constructor
    · simp only [edgeCounted, hap]
      rfl
    · simp only [edgeHiddenShowAll, hap]
      rfl

/-- C4, witness: a score-less edge is counted identically at thresholds 0
and 1. -/
theorem C4_confidence_floor_witness :
    ((⟨"a", "b", "", none⟩ : VEdge).afmprob = none) ∧
    edgeCounted exC7graph ⟨0, false, 0, false⟩ ⟨"a", "b", "", none⟩ =
      edgeCounted exC7graph ⟨0, false, 1, false⟩ ⟨"a", "b", "", none⟩ :=
  ⟨rfl, (C4_confidence_floor.2.2 exC7graph 0 false 0 1 false ⟨"a", "b", "", none⟩ rfl).1⟩

/-- C6: raising the degree floor (all other parameters fixed) never increases
the visible-node total of the filter engine, and raising the confidence
floor never increases the visible-edge total. -/
theorem C6_filter_monotone :
    ∀ (g : VGraph) (onlyNew : Bool) (sa : Bool),
      (∀ (thr1 thr2 : ℕ) (conf : ℚ), thr1 ≤ thr2 →
        nodesTotal g ⟨thr2, onlyNew, conf, sa⟩ ≤ nodesTotal g ⟨thr1, onlyNew, conf, sa⟩) ∧
      (∀ (thr : ℕ) (c1 c2 : ℚ), c1 ≤ c2 →
        edgesTotal g ⟨thr, onlyNew, c2, sa⟩ ≤ edgesTotal g ⟨thr, onlyNew, c1, sa⟩) := by
  intro g onlyNew sa
  constructor
  · intro thr1 thr2 conf h
    exact length_filter_le_of_imp (fun n _ hv => nodeVisible_mono_thr h n hv)
  · intro thr c1 c2 h
    exact length_filter_le_of_imp (fun e _ hc => edgeCounted_mono_conf h e hc)

/-- C6, witness: at the concrete two-node graph, raising the degree floor
from 0 to 2 does not increase the visible-node total (here it lowers it from
2 to 0). -/
theorem C6_filter_monotone_witness :
    nodesTotal exC7graph ⟨2, false, 0, false⟩ ≤ nodesTotal exC7graph ⟨0, false, 0, false⟩ ∧
    nodesTotal exC7graph ⟨2, false, 0, false⟩ = 0 ∧
    nodesTotal exC7graph ⟨0, false, 0, false⟩ = 2 :=
  ⟨(C6_filter_monotone exC7graph false false).1 0 2 0 (by decide), by decide, by decide⟩

/-- C7, counterexample.  With the show-all-edges override active and the
degree floor at 2, both endpoints of the single edge are invisible (the
visible-node set is empty), yet the per-edge hidden flag written by the
show-all-edges effect marks the edge visible: the flag formula consults only
the edge's own tag and confidence, not endpoint visibility. -/
theorem C7_edge_visibility_counterexample :
    edgeHiddenShowAll exC7st (⟨"a", "b", "", none⟩ : VEdge) = false ∧
    visIds exC7graph exC7st = [] ∧
    edgesTotal exC7graph exC7st = 0 := by
  decide

/-- C7, amended: the aggregate visible-edge counts require both endpoints to
be visible under the current node filters — an edge is counted only when
both its endpoints are in the visible-node set (and consequently the
counted-edge and novel-edge totals never exceed what the endpoint filter
admits); the per-edge hidden flags written while the show-all-edges override
is active do *not* consult endpoint visibility. -/
theorem C7_edge_requires_endpoints_amended :
    ∀ (g : VGraph) (st : FilterSt) (e : VEdge),
      edgeCounted g st e = true →
      e.source ∈ visIds g st ∧ e.target ∈ visIds g st := by
  intro g st e h
  simp only [edgeCounted, Bool.and_eq_true, decide_eq_true_eq] at h
  exact ⟨h.1.1.1, h.1.1.2⟩

/-- C7, witness: with no filters active the single edge is counted and both
endpoints are indeed in the visible set. -/
theorem C7_edge_requires_endpoints_witness :
    edgeCounted exC7graph ⟨0, false, 0, false⟩ (⟨"a", "b", "", none⟩ : VEdge) = true ∧
    ("a" ∈ visIds exC7graph ⟨0, false, 0, false⟩ ∧
     "b" ∈ visIds exC7graph ⟨0, false, 0, false⟩) :=
  ⟨by decide, C7_edge_requires_endpoints_amended exC7graph ⟨0, false, 0, false⟩
    ⟨"a", "b", "", none⟩ (by decide)⟩

/-- C8: entering Focused snapshots the camera only from the unfocused state —
focusing while already focused leaves the stored snapshot untouched — and the
committed defocus restores exactly the stored snapshot; hence any chain
focus(N1), …, focus(Nk), defocus starting unfocused returns the camera to
the state saved before focus(N1) (exactly, in the rational model of the
animation targets). -/
theorem C8_focus_snapshot_roundtrip :
    (∀ (g : VGraph) (s : FocusSt) (n : String), s.focused ≠ none →
      (focusStep g s n).prevCam = s.prevCam) ∧
    (∀ (g : VGraph) (s : FocusSt) (n : String), s.focused = none →
      (focusStep g s n).prevCam = some s.cam) ∧
    (∀ (g : VGraph) (s : FocusSt) (n : String) (ns : List String),
      s.focused = none →
      (defocusStep (List.foldl (focusStep g) (focusStep g s n) ns)).cam = s.cam) := by
  refine ⟨?_, ?_, ?_⟩
  · intro g s n h
    simp [focusStep, if_neg h]
  · intro g s n h
    simp [focusStep, if_pos h]
  · intro g s n ns h
    have h1 : (focusStep g s n).focused ≠ none := by simp [focusStep]
    have h2 : (focusStep g s n).prevCam = some s.cam := by simp [focusStep, if_pos h]
    obtain ⟨hf, hp⟩ := focusFold_inv g ns (focusStep g s n) h1
    rw [h2] at hp
    rcases hfold : (List.foldl (focusStep g) (focusStep g s n) ns).focused with _ | m
    · exact absurd hfold hf
    · unfold defocusStep
      rw [hfold, hp]

/-- C8, witness: a concrete focus(n1), focus(n2), defocus chain from an
unfocused state returns the camera to its initial state. -/
theorem C8_focus_snapshot_roundtrip_witness :
    ((⟨none, none, ⟨0, 0, 1, 0⟩⟩ : FocusSt).focused = none) ∧
    (defocusStep (List.foldl (focusStep exC7graph)
        (focusStep exC7graph ⟨none, none, ⟨0, 0, 1, 0⟩⟩ "a") ["b"])).cam =
      (⟨none, none, ⟨0, 0, 1, 0⟩⟩ : FocusSt).cam :=
  ⟨rfl, C8_focus_snapshot_roundtrip.2.2 exC7graph ⟨none, none, ⟨0, 0, 1, 0⟩⟩ "a" ["b"] rfl⟩

/-- C9: a data row with both endpoint values present is never rejected for a
bad weight — with no weight column configured the weight defaults to 1, and
with a weight column whose (non-empty) cell the number oracle rejects as
non-numeric (NaN) the row is kept with its weight coerced to 1; in both
cases exactly one raw edge is appended. -/
theorem C9_weight_coercion :
    ∀ (num : String → Option ℚ) (h : HeaderIdx) (st : IngestState) (line : String),
      cellAt (jsSplitTab line) h.s ≠ "" → cellAt (jsSplitTab line) h.t ≠ "" →
      ((h.w = none → ∃ e : RawEdge,
        (processRow num h st line).edgesRaw = st.edgesRaw ++ [e] ∧
        e.a = cellAt (jsSplitTab line) h.s ∧ e.b = cellAt (jsSplitTab line) h.t ∧
        e.w = 1) ∧
      (∀ i : ℕ, h.w = some i → cellAt (jsSplitTab line) i ≠ "" →
        num (cellAt (jsSplitTab line) i) = none → ∃ e : RawEdge,
        (processRow num h st line).edgesRaw = st.edgesRaw ++ [e] ∧
        e.a = cellAt (jsSplitTab line) h.s ∧ e.b = cellAt (jsSplitTab line) h.t ∧
        e.w = 1)) := by
  intro num h st line ha hb
  have hab : ¬ (cellAt (jsSplitTab line) h.s = "" ∨ cellAt (jsSplitTab line) h.t = "") := by
    rintro (h1 | h1) <;> [exact ha h1; exact hb h1]
  constructor
  · intro hw
    refine ⟨⟨cellAt (jsSplitTab line) h.s, cellAt (jsSplitTab line) h.t, 1,
      (match h.adb with | none => "" | some i => cellAt (jsSplitTab line) i),
      (match h.ap with | none => none | some i => numCell num (jsSplitTab line) i)⟩,
      ?_, rfl, rfl, rfl⟩
    simp only [processRow, if_neg hab, hw]
    rfl
  · intro i hw hcell hnum
    refine ⟨⟨cellAt (jsSplitTab line) h.s, cellAt (jsSplitTab line) h.t, 1,
      (match h.adb with | none => "" | some i => cellAt (jsSplitTab line) i),
      (match h.ap with | none => none | some i => numCell num (jsSplitTab line) i)⟩,
      ?_, rfl, rfl, rfl⟩
    simp only [processRow, if_neg hab, hw, numCell, if_neg hcell, hnum]
    rfl

/-- C9, witness: a concrete row `a<TAB>b<TAB>x` with weight column 2 whose
cell the oracle rejects is kept with weight 1. -/
theorem C9_weight_coercion_witness :
    ∃ e : RawEdge,
      (processRow (fun _ => none) { s := 0, t := 1, w := some 2 } {} "a\tb\tx").edgesRaw =
        ({} : IngestState).edgesRaw ++ [e] ∧
      e.a = cellAt (jsSplitTab "a\tb\tx") 0 ∧ e.b = cellAt (jsSplitTab "a\tb\tx") 1 ∧
      e.w = 1 :=
  (C9_weight_coercion (fun _ => none) { s := 0, t := 1, w := some 2 } {} "a\tb\tx"
    (by decide) (by decide)).2 2 rfl (by decide) rfl

/-- Since `@` is not `|`, a node instance key built from `|`-free id and
locality is `|`-free. -/
theorem pipe_not_mem_nodeKey {id loc : String} (hid : ('|' : Char) ∉ id.data)
    (hloc : ('|' : Char) ∉ loc.data) (hne : loc ≠ "") :
    ('|' : Char) ∉ (nodeKey id loc).data := by
  unfold nodeKey
  rw [if_neg hne]
  intro hmem
  rw [String.data_append, String.data_append] at hmem
  rcases List.mem_append.mp hmem with h | h
  · rcases List.mem_append.mp h with h | h
    · exact hid h
    · simp at h
  · exact hloc h

/-- C10: the export loop's adjacency map is symmetric and its per-node entry
count is exactly the graph degree (self-loops contributing twice on both
sides); consequently in both generated datasets every node's exported
`degree` field equals the length of its adjacency list, and the adjacency
maps are symmetric. -/
theorem C10_adjacency_degree :
    (∀ (edges : List GEdge) (id : String),
      (adjOf edges id).length = graphDegree edges id) ∧
    (∀ (edges : List GEdge) (a b : String),
      b ∈ adjOf edges a ↔ a ∈ adjOf edges b) ∧
    (∀ (num : String → Option ℚ) (layout : String → ℚ × ℚ)
      (community : String → Option ℤ) (sizeOf : ℕ → ℚ) (cfg : Cfg)
      (lines : List String),
      (∀ n ∈ (tsvDataset num layout community sizeOf cfg lines).nodes,
        n.degree =
          ((tsvDataset num layout community sizeOf cfg lines).adjacency n.id).length) ∧
      (∀ a b : String,
        b ∈ (tsvDataset num layout community sizeOf cfg lines).adjacency a ↔
        a ∈ (tsvDataset num layout community sizeOf cfg lines).adjacency b)) ∧
    (∀ (num : String → Option ℚ) (posL : String → String → ℚ × ℚ) (cfg : Cfg)
      (lines : List String),
      (∀ n ∈ (locPipeline num posL cfg lines).nodes,
        n.degree = ((locPipeline num posL cfg lines).adjacency n.id).length) ∧
      (∀ a b : String,
        b ∈ (locPipeline num posL cfg lines).adjacency a ↔
        a ∈ (locPipeline num posL cfg lines).adjacency b)) := by
  refine ⟨length_adjOf, adjOf_symm, ?_, ?_⟩
  · intro num layout community sizeOf cfg lines
    constructor
    · intro n hn
      unfold tsvDataset exportDefault at hn ⊢
      obtain ⟨id, _, rfl⟩ := List.mem_map.mp hn
      exact (length_adjOf _ _).symm
    · intro a b
      unfold tsvDataset exportDefault
      exact adjOf_symm _ a b
  · intro num posL cfg lines
    constructor
    · intro n hn
      unfold locPipeline locDatasetOf locNodes at hn ⊢
      obtain ⟨p, _, rfl⟩ := List.mem_map.mp hn
      exact (length_adjOf _ _).symm
    · intro a b
      unfold locPipeline locDatasetOf
      exact adjOf_symm _ a b

/-- C10, witness: in the default dataset of the concrete duplicate-row input,
the concrete node `a` has degree equal to its adjacency length, and symmetry
holds at `a`/`b`. -/
theorem C10_adjacency_degree_witness :
    exC10node.degree = ((tsvDataset (fun _ => none) (fun _ => (0, 0)) (fun _ => none)
        (fun _ => 0) {} exC3lines).adjacency exC10node.id).length ∧
    ("b" ∈ (tsvDataset (fun _ => none) (fun _ => (0, 0)) (fun _ => none)
        (fun _ => 0) {} exC3lines).adjacency "a" ↔
     "a" ∈ (tsvDataset (fun _ => none) (fun _ => (0, 0)) (fun _ => none)
        (fun _ => 0) {} exC3lines).adjacency "b") :=
  ⟨(C10_adjacency_degree.2.2.1 (fun _ => none) (fun _ => (0, 0)) (fun _ => none)
      (fun _ => 0) {} exC3lines).1 exC10node (by decide),
   (C10_adjacency_degree.2.2.1 (fun _ => none) (fun _ => (0, 0)) (fun _ => none)
      (fun _ => 0) {} exC3lines).2 "a" "b"⟩

/-- C5: the locality edge re-routing rule.  (1) If `l` is the first declared
locality of the `a` side that the `b` side also declares, the edge is routed
to the shared pair `(l, l)`; (2) with no shared locality it is routed to
each side's first (or `unknown`) locality; (3) every emitted locality edge
is the verbatim image of a raw edge routed exactly this way, between
`base@locality` instance keys; (4) an edge between a protein declared only
in `L1` and one declared only in `L2` (`L1 ≠ L2`, ids and localities free of
the `|` separator) always appears in the locality dataset with endpoints
`A@L1` and `B@L2` — it is never silently dropped. -/
theorem C5_locality_routing :
    (∀ (bLocs pre post : List String) (l : String),
      l ∈ bLocs → (∀ x ∈ pre, x ∉ bLocs) →
      routeLocs (pre ++ l :: post) bLocs = (l, l)) ∧
    (∀ (aLocs bLocs : List String), (∀ x ∈ aLocs, x ∉ bLocs) →
      routeLocs aLocs bLocs = (headLoc aLocs, headLoc bLocs)) ∧
    (∀ (st : IngestState) (e : GEdge), e ∈ locEdges st →
      ∃ r ∈ st.edgesRawLoc, e = mkLocEdge st r ∧
        e.source = nodeKey r.a (routeLocs (effLocsA st r) (effLocsB st r)).1 ∧
        e.target = nodeKey r.b (routeLocs (effLocsA st r) (effLocsB st r)).2) ∧
    (∀ (st : IngestState) (A B L1 L2 : String),
      locsOf st A = [L1] → locsOf st B = [L2] →
      (∀ r ∈ st.edgesRawLoc,
        (r.a = A → r.locs1 = [] ∨ r.locs1 = [L1]) ∧
        (r.b = A → r.locs2 = [] ∨ r.locs2 = [L1]) ∧
        (r.a = B → r.locs1 = [] ∨ r.locs1 = [L2]) ∧
        (r.b = B → r.locs2 = [] ∨ r.locs2 = [L2])) →
      L1 ≠ L2 → L1 ≠ "" → L2 ≠ "" →
      A ∈ st.nodeSet → B ∈ st.nodeSet →
      ('|' : Char) ∉ A.data → ('|' : Char) ∉ B.data →
      ('|' : Char) ∉ L1.data → ('|' : Char) ∉ L2.data →
      (∃ r ∈ st.edgesRawLoc, (r.a = A ∧ r.b = B) ∨ (r.a = B ∧ r.b = A)) →
      ∃ e ∈ locEdges st,
        (e.source = nodeKey A L1 ∧ e.target = nodeKey B L2) ∨
        (e.source = nodeKey B L2 ∧ e.target = nodeKey A L1)) := by
  have hshared : ∀ (bLocs pre post : List String) (l : String),
      l ∈ bLocs → (∀ x ∈ pre, x ∉ bLocs) →
      routeLocs (pre ++ l :: post) bLocs = (l, l) := by
    intro bLocs pre post l hl hpre
    unfold routeLocs
    rw [find?_append_first _ pre post l
      (fun x hx => by simpa using hpre x hx) (by simpa using hl)]
  have hnone : ∀ (aLocs bLocs : List String), (∀ x ∈ aLocs, x ∉ bLocs) →
      routeLocs aLocs bLocs = (headLoc aLocs, headLoc bLocs) := by
    intro aLocs bLocs hno
    unfold routeLocs
    rw [List.find?_eq_none.mpr (fun x hx => by simpa using hno x hx)]
  refine ⟨hshared, hnone, ?_, ?_⟩
  · intro st e he
    obtain ⟨r, hr, _, rfl⟩ := mem_locEdges he
    exact ⟨r, hr, rfl, rfl, rfl⟩
  · intro st A B L1 L2 hA hB hrows hne hL1 hL2 hAmem hBmem hbA hbB hbL1 hbL2 hex
    obtain ⟨r, hr, hor⟩ := hex
    have hrouteAB : routeLocs [L1] [L2] = (L1, L2) := by
      rw [hnone [L1] [L2] ?_]
      · simp [headLoc, hL1, hL2]
      · intro x hx
        simp only [List.mem_singleton] at hx
        subst hx
        simp [hne]
    have hrouteBA : routeLocs [L2] [L1] = (L2, L1) := by
      rw [hnone [L2] [L1] ?_]
      · simp [headLoc, hL1, hL2]
      · intro x hx
        simp only [List.mem_singleton] at hx
        subst hx
        simp [Ne.symm hne]
    have hkeyA : hasNodeL st (nodeKey A L1) = true :=
      hasNodeL_of_mem hAmem (by simp [hA])
    have hkeyB : hasNodeL st (nodeKey B L2) = true :=
      hasNodeL_of_mem hBmem (by simp [hB])
    -- the witness row is routed to (A@L1, B@L2) (or the swap) and passes
    have hrk : routedKeys st r = (nodeKey A L1, nodeKey B L2) ∨
        routedKeys st r = (nodeKey B L2, nodeKey A L1) := by
      rcases hor with ⟨ha, hb⟩ | ⟨ha, hb⟩
      · left
        have heA : effLocsA st r = [L1] := by
          unfold effLocsA
          rcases (hrows r hr).1 ha with h0 | h0
          · rw [if_neg (by simp [h0]), ha, hA]
          · rw [if_pos (by simp [h0]), h0]
        have heB : effLocsB st r = [L2] := by
          unfold effLocsB
          rcases (hrows r hr).2.2.2 hb with h0 | h0
          · rw [if_neg (by simp [h0]), hb, hB]
          · rw [if_pos (by simp [h0]), h0]
        unfold routedKeys
        rw [heA, heB, hrouteAB, ha, hb]
      · right
        have heA : effLocsA st r = [L2] := by
          unfold effLocsA
          rcases (hrows r hr).2.2.1 ha with h0 | h0
          · rw [if_neg (by simp [h0]), ha, hB]
          · rw [if_pos (by simp [h0]), h0]
        have heB : effLocsB st r = [L1] := by
          unfold effLocsB
          rcases (hrows r hr).2.1 hb with h0 | h0
          · rw [if_neg (by simp [h0]), hb, hA]
          · rw [if_pos (by simp [h0]), h0]
        unfold routedKeys
        rw [heA, heB, hrouteBA, ha, hb]
    have hpass : locPass st r = true := by
      unfold locPass
      rcases hrk with h | h <;> rw [h] <;> simp [hkeyA, hkeyB]
    have hkeyr : locKey st r = locEdgeId (nodeKey A L1) (nodeKey B L2) := by
      unfold locKey
      rcases hrk with h | h
      · rw [h]
      · rw [h]
        exact locEdgeId_comm _ _
    -- the key is emitted
    have hkmem : locEdgeId (nodeKey A L1) (nodeKey B L2) ∈
        (dedupBy (locKey st) (st.edgesRawLoc.filter (locPass st)) []).map (locKey st) := by
      refine (mem_keys_dedupBy (locKey st)).mpr ⟨List.not_mem_nil _, ?_⟩
      exact List.mem_map.mpr ⟨r, List.mem_filter.mpr ⟨hr, hpass⟩, hkeyr⟩
    obtain ⟨x, hx, hxkey⟩ := List.mem_map.mp hkmem
    refine ⟨mkLocEdge st x, ?_, ?_⟩
    · rw [locEdges, locEdgesAux_eq]
      exact List.mem_map.mpr ⟨x, hx, rfl⟩
    · have hbnkA : ('|' : Char) ∉ (nodeKey A L1).data :=
        pipe_not_mem_nodeKey hbA hbL1 hL1
      have hbnkB : ('|' : Char) ∉ (nodeKey B L2).data :=
        pipe_not_mem_nodeKey hbB hbL2 hL2
      have heq : locEdgeId (mkLocEdge st x).source (mkLocEdge st x).target =
          locEdgeId (nodeKey A L1) (nodeKey B L2) := hxkey
      exact locEdgeId_eq_cases hbnkA hbnkB heq

/-- C5, witness: in the concrete state where `A` is declared only in `L1`,
`B` only in `L2`, and one row connects them, the cross-compartment edge
appears between `A@L1` and `B@L2`. -/
theorem C5_locality_routing_witness :
    ∃ e ∈ locEdges exC5st,
      (e.source = nodeKey "A" "L1" ∧ e.target = nodeKey "B" "L2") ∨
      (e.source = nodeKey "B" "L2" ∧ e.target = nodeKey "A" "L1") :=
  C5_locality_routing.2.2.2 exC5st "A" "B" "L1" "L2" (by decide) (by decide)
    (by decide) (by decide) (by decide) (by decide) (by decide) (by decide)
    (by decide) (by decide) (by decide) (by decide)
    ⟨⟨"A", "B", some 1, "", none, ["L1"], ["L2"]⟩, by decide, Or.inl ⟨rfl, rfl⟩⟩
